import Mathlib

/-!
Verification of the `bptree_rust` B+-tree library.

The definitions below are a shallow embedding of the Rust sources:
`src/bptree.rs`, `src/bptree/node.rs`, `src/bptree/node/external.rs` and
`src/bptree/node/internal.rs`.  Rust `Vec`s become `List`s, `usize` becomes
`Nat`, `Box`/`RefCell` indirection disappears (the code is single threaded
and `Clone` on nodes is a deep copy, so plain value semantics is exact),
`Result`/`panic!`/`unwrap` failures are modelled with `Except String`
(function results) and `Option` (for `meiosis`, whose only failure modes in
the source are panics).
-/

namespace Bptree

/- `pub type Key = usize;` and `pub type Value = usize;` (node.rs) are both
modelled as `Nat` directly. -/

/-- `enum InsertResult { Full, Open }` (node.rs). -/
inductive InsertResult where
  | Full
  | Open
deriving DecidableEq, Repr

/-- `struct ExternalNode` (external.rs): `node_size`, parallel `keys` /
`values` vectors and the owned forward link `next: Option<Box<ExternalNode>>`.
`Box` cloning is a deep copy, so an inductive value field is exact. -/
inductive ExternalNode where
  | mk (node_size : Nat) (keys : List Nat) (values : List Nat)
       (next : Option ExternalNode)

def ExternalNode.node_size : ExternalNode → Nat
  | .mk ns _ _ _ => ns

def ExternalNode.keys : ExternalNode → List Nat
  | .mk _ ks _ _ => ks

def ExternalNode.values : ExternalNode → List Nat
  | .mk _ _ vs _ => vs

def ExternalNode.next : ExternalNode → Option ExternalNode
  | .mk _ _ _ nx => nx

/-- `enum NodeType { Int(InternalNode), Ext(ExternalNode) }` (node.rs);
the fields of `struct InternalNode` (internal.rs) are inlined into the
`Int` constructor: `node_size`, routing `keys`, the child `pointers`
vector and the extra `greater` child. -/
inductive NodeType where
  | Ext (e : ExternalNode)
  | Int (node_size : Nat) (keys : List Nat) (pointers : List NodeType)
        (greater : NodeType)

/-- `Iterator::position`: index of the first element satisfying `p`.
Used by both `get_insert_position` (external.rs) and
`get_child_division` (internal.rs). -/
def position (p : Nat → Bool) : List Nat → Option Nat
  | [] => none
  | k :: ks => if p k then some 0 else (position p ks).map (· + 1)

/-- `ExternalNode::get_insert_position`: index of the first key strictly
greater than `key`. -/
def get_insert_position (keys : List Nat) (key : Nat) : Option Nat :=
  position (fun k => decide (key < k)) keys

/-- `InternalNode::get_child_division`: index of the first routing key
strictly greater than `key`. -/
def get_child_division (keys : List Nat) (key : Nat) : Option Nat :=
  position (fun k => decide (key < k)) keys

/-- `Vec::insert(position, a)`.  In the source the index is always at most
the current length; beyond the length this model appends while Rust would
panic, but no reachable call site is out of range. -/
def listInsertAt {α : Type} : Nat → α → List α → List α
  | 0, a, l => a :: l
  | _ + 1, a, [] => [a]
  | n + 1, a, x :: xs => x :: listInsertAt n a xs

/-- The `Err` message used by both node `insert` implementations. -/
def capacityErr : String :=
  "Could not insert key-val. Maybe the node was full? That should not happen, check source."

/-- `ExternalNode::lookup`: first entry of `keys.zip(values)` whose key
matches. -/
def ExternalNode.lookup (e : ExternalNode) (key : Nat) : Option Nat :=
  match e with
  | .mk _ ks vs _ =>
    ((ks.zip vs).find? (fun q => decide (q.1 = key))).map (fun q => q.2)

/-- The key/value surgery performed by `ExternalNode::insert`: insert
both at `get_insert_position` (computed on the keys), or push both when
the new key is the largest. -/
def kvIns (key : Nat) (value : Nat) (ks : List Nat) (vs : List Nat) :
    List Nat × List Nat :=
  match get_insert_position ks key with
  | some p => (listInsertAt p key ks, listInsertAt p value vs)
  | none => (ks ++ [key], vs ++ [value])

/-- The keys after a leaf insert (first component of `kvIns`). -/
def keyIns (key : Nat) (ks : List Nat) : List Nat :=
  match get_insert_position ks key with
  | some p => listInsertAt p key ks
  | none => ks ++ [key]

/-- `ExternalNode::insert` (external.rs): fail fast when already at
capacity, insert at `get_insert_position` (push when `None`), report
`Full` exactly when the new length reaches `node_size`. -/
def ExternalNode.insert (e : ExternalNode) (key : Nat) (value : Nat) :
    Except String (ExternalNode × InsertResult) :=
  match e with
  | .mk ns ks vs nx =>
    if ns ≤ ks.length then
      .error capacityErr
    else
      let kv := kvIns key value ks vs
      .ok (.mk ns kv.1 kv.2 nx, if kv.1.length = ns then .Full else .Open)

/-- `ExternalNode::meiosis` (external.rs): split at
`cut_at = (node_size + 1) >> 1`; the right half keeps the old forward
link, the left half's forward link becomes the right half; the separator
is the right half's first key (`unwrap` panic, modelled as `none`, when
the right half is empty). -/
def ExternalNode.meiosis (e : ExternalNode) : Option (ExternalNode × ExternalNode × Nat) :=
  match e with
  | .mk ns ks vs nx =>
    let cut := (ns + 1) >>> 1
    match ks.drop cut with
    | [] => none
    | sep :: _ =>
      let latter := ExternalNode.mk ns (ks.drop cut) (vs.drop cut) nx
      some (.mk ns (ks.take cut) (vs.take cut) (some latter), latter, sep)

/-- `Node::lookup` for `NodeType` (node.rs dispatch plus
`InternalNode::lookup`): descend into the child at `get_child_division`,
or into `greater`.  An out-of-range child index is a Rust panic; it is
unreachable for the well-formed nodes this development reasons about. -/
def NodeType.lookup : NodeType → Nat → Option Nat
  | .Ext e, key => e.lookup key
  | .Int _ ks ps g, key =>
    match get_child_division ks key with
    | some div =>
      match hdiv : ps[div]? with
      | some child => child.lookup key
      | none => none
    | none => g.lookup key
termination_by n => sizeOf n
decreasing_by
  · have hm : child ∈ ps := by
      have := List.getElem?_eq_some.mp hdiv
      obtain ⟨hlt, hget⟩ := this
      exact hget ▸ List.getElem_mem hlt
    have h1 := List.sizeOf_lt_of_mem hm
    simp only [NodeType.Int.sizeOf_spec]
    omega
  · simp only [NodeType.Int.sizeOf_spec]
    omega

/-- `Node::meiosis` for `NodeType`: dispatch to the leaf split or to
`InternalNode::meiosis` (internal.rs): explicit `panic!()` (`none`) when
fewer than three keys or pointers, otherwise split at
`div_at = (node_size >> 1) - 1`, promote (and remove) the right half's
first key, give the left half the child after the split point and keep
the original `greater` in the right half. -/
def NodeType.meiosis : NodeType → Option (NodeType × NodeType × Nat)
  | .Ext e => e.meiosis.map (fun r => (.Ext r.1, .Ext r.2.1, r.2.2))
  | .Int ns ks ps g =>
    if ps.length < 3 ∨ ks.length < 3 then none
    else
      let d := (ns >>> 1) - 1
      match ks.drop d, ps.drop d with
      | lkf :: lks, lpf :: lps =>
        some (.Int ns (ks.take d) (ps.take d) lpf, .Int ns lks lps g, lkf)
      | _, _ => none

/-- `Node::insert` for `NodeType` (node.rs dispatch, external.rs and
internal.rs bodies).  The internal body: fail fast unless
`keys.len() <= node_size - 2`; descend into the division child (or
`greater`); on a `Full` child run its `meiosis`, splice
`(former, separator, latter)` in place of the child (append them and
replace `greater` on the `None` branch) and report `Full` exactly when
the key count reaches `node_size - 1`. -/
def NodeType.insert : NodeType → Nat → Nat → Except String (NodeType × InsertResult)
  | .Ext e, key, value =>
    (e.insert key value).map (fun r => (.Ext r.1, r.2))
  | .Int ns ks ps g, key, value =>
    if ¬ ks.length ≤ ns - 2 then
      .error capacityErr
    else
      match get_child_division ks key with
      | some pos =>
        match hdiv : ps[pos]? with
        | none => .error "index out of bounds"
        | some child =>
          match child.insert key value with
          | .error _ => .error capacityErr
          | .ok (child2, InsertResult.Open) =>
            .ok (.Int ns ks (ps.set pos child2) g, .Open)
          | .ok (child2, InsertResult.Full) =>
            match child2.meiosis with
            | none => .error "meiosis failure"
            | some (former, latter, sep) =>
              let ks2 := listInsertAt pos sep ks
              let ps2 := listInsertAt pos former (ps.set pos latter)
              .ok (.Int ns ks2 ps2 g,
                   if ks2.length = ns - 1 then .Full else .Open)
      | none =>
        match g.insert key value with
        | .error _ => .error capacityErr
        | .ok (g2, InsertResult.Open) =>
          .ok (.Int ns ks ps g2, .Open)
        | .ok (g2, InsertResult.Full) =>
          match g2.meiosis with
          | none => .error "meiosis failure"
          | some (former, latter, sep) =>
            let ks2 := ks ++ [sep]
            .ok (.Int ns ks2 (ps ++ [former]) latter,
                 if ks2.length = ns - 1 then .Full else .Open)
termination_by n _ _ => sizeOf n
decreasing_by
  · have hm : child ∈ ps := by
      have := List.getElem?_eq_some.mp hdiv
      obtain ⟨hlt, hget⟩ := this
      exact hget ▸ List.getElem_mem hlt
    have h1 := List.sizeOf_lt_of_mem hm
    simp only [NodeType.Int.sizeOf_spec]
    omega
  · simp only [NodeType.Int.sizeOf_spec]
    omega

/-- The internal-node `lookup` body of `NodeType.lookup`, written with
plain matches (no termination bookkeeping); proved equal to the
function below. -/
def lookupAux (key : Nat) (g : NodeType) (ks : List Nat) (ps : List NodeType) : Option Nat :=
  match get_child_division ks key with
  | some div =>
    match ps[div]? with
    | some child => child.lookup key
    | none => none
  | none => g.lookup key

/-- The internal-node `insert` body of `NodeType.insert`, written with
plain matches; proved equal to the function below. -/
def insertIntBody (ns key value : Nat) (ks : List Nat) (ps : List NodeType)
    (g : NodeType) : Except String (NodeType × InsertResult) :=
  if ¬ ks.length ≤ ns - 2 then
    .error capacityErr
  else
    match get_child_division ks key with
    | some pos =>
      match ps[pos]? with
      | none => .error "index out of bounds"
      | some child =>
        match child.insert key value with
        | .error _ => .error capacityErr
        | .ok (child2, InsertResult.Open) =>
          .ok (.Int ns ks (ps.set pos child2) g, .Open)
        | .ok (child2, InsertResult.Full) =>
          match child2.meiosis with
          | none => .error "meiosis failure"
          | some (former, latter, sep) =>
            let ks2 := listInsertAt pos sep ks
            let ps2 := listInsertAt pos former (ps.set pos latter)
            .ok (.Int ns ks2 ps2 g,
                 if ks2.length = ns - 1 then .Full else .Open)
    | none =>
      match g.insert key value with
      | .error _ => .error capacityErr
      | .ok (g2, InsertResult.Open) =>
        .ok (.Int ns ks ps g2, .Open)
      | .ok (g2, InsertResult.Full) =>
        match g2.meiosis with
        | none => .error "meiosis failure"
        | some (former, latter, sep) =>
          let ks2 := ks ++ [sep]
          .ok (.Int ns ks2 (ps ++ [former]) latter,
               if ks2.length = ns - 1 then .Full else .Open)

/-- The spec's `height` contract: a leaf has height 1.
Modelled from the spec: `InternalNode` has no `height` implementation in
the sources (the trait method is declared in node.rs and leaves return 1
in external.rs); following spec §4.1 "internal = 1 + height of any child
(all children at the same depth)" the internal case is modelled as one
plus the height of the always-present `greater` child. -/
def NodeType.height : NodeType → Nat
  | .Ext _ => 1
  | .Int _ _ _ g => 1 + g.height
termination_by n => sizeOf n
decreasing_by
  simp only [NodeType.Int.sizeOf_spec]
  omega

/-- `struct BPlusTree` (bptree.rs). -/
structure BPlusTree where
  node_size : Nat
  root : NodeType

/-- `BPlusTree::new`: the root starts as an empty leaf. -/
def BPlusTree.new (node_size : Nat) : BPlusTree :=
  ⟨node_size, .Ext (.mk node_size [] [] none)⟩

/-- `BPlusTree::insert` (bptree.rs): delegate to the root; on `Full`
split the root and wrap the halves in a brand-new internal root
(`InternalNode::new_by_nodes`).  `Err(())` and panics are both modelled
as `.error`. -/
def BPlusTree.insert (t : BPlusTree) (key : Nat) (value : Nat) :
    Except String BPlusTree :=
  match t.root.insert key value with
  | .ok (root2, InsertResult.Open) => .ok ⟨t.node_size, root2⟩
  | .ok (root2, InsertResult.Full) =>
    match root2.meiosis with
    | some (node1, node2, sep) =>
      .ok ⟨t.node_size, .Int t.node_size [sep] [node1] node2⟩
    | none => .error "meiosis failure"
  | .error _ => .error "insert failure"

/-- `BPlusTree::lookup`. -/
def BPlusTree.lookup (t : BPlusTree) (key : Nat) : Option Nat :=
  t.root.lookup key

/-- `BPlusTree::height`. -/
def BPlusTree.height (t : BPlusTree) : Nat :=
  t.root.height

/-- Folding `BPlusTree::insert` over a list of key/value pairs, stopping
at the first failure; this models an external caller's insert loop. -/
def insertList (t : BPlusTree) : List (Nat × Nat) → Except String BPlusTree
  | [] => .ok t
  | q :: qs =>
    match t.insert q.1 q.2 with
    | .ok t2 => insertList t2 qs
    | .error e => .error e

/-! ### Observation functions (specification side) -/

mutual

/-- All key/value pairs stored in the leaves under a node, left to right. -/
def NodeType.entries : NodeType → List (Nat × Nat)
  | .Ext (.mk _ ks vs _) => ks.zip vs
  | .Int _ _ ps g => entriesList ps ++ NodeType.entries g

def entriesList : List NodeType → List (Nat × Nat)
  | [] => []
  | p :: ps => NodeType.entries p ++ entriesList ps

end

/-- The routing keys (internal root) or stored keys (leaf root) of the
root node; after a single root split these are exactly the separator
keys those splits returned. -/
def rootKeys (t : BPlusTree) : List Nat :=
  match t.root with
  | .Ext e => e.keys
  | .Int _ ks _ _ => ks

/-- Tail of the comma-separated key rendering: `", " ++ key` per key. -/
def renderTail : List Nat → String
  | [] => ""
  | k :: ks => ", " ++ Nat.repr k ++ renderTail ks

/-- `a, b, c` style key list used by `impl fmt::Display for ExternalNode`. -/
def renderKeys : List Nat → String
  | [] => ""
  | k :: ks => Nat.repr k ++ renderTail ks

/-- `impl fmt::Display for ExternalNode` (external.rs): bracketed,
comma separated keys. -/
def ExternalNode.render (e : ExternalNode) : String :=
  "[" ++ renderKeys e.keys ++ "]"

mutual

/-- `impl fmt::Display for InternalNode` (internal.rs) together with the
`NodeType` dispatch (node.rs): every pointer child is rendered followed
by `", "`, then the `greater` child, all inside brackets.  The routing
keys are not rendered. -/
def NodeType.render : NodeType → String
  | .Ext e => e.render
  | .Int _ _ ps g => "[" ++ renderList ps ++ NodeType.render g ++ "]"

def renderList : List NodeType → String
  | [] => ""
  | p :: ps => NodeType.render p ++ ", " ++ renderList ps

end

/-- `impl fmt::Display for BPlusTree` (bptree.rs): renders the root. -/
def BPlusTree.render (t : BPlusTree) : String :=
  t.root.render

/-- The keys seen by walking a leaf's `next` chain (spec §3: the leaf
chain used for ordered traversal). -/
def chainKeys : ExternalNode → List Nat
  | .mk _ ks _ none => ks
  | .mk _ ks _ (some nx) => ks ++ chainKeys nx

/-- The leftmost leaf of a tree: descend through first children. -/
def leftmostLeaf : NodeType → Option ExternalNode
  | .Ext e => some e
  | .Int _ _ [] g => leftmostLeaf g
  | .Int _ _ (p :: _) _ => leftmostLeaf p

/-- Association list lookup: first pair with the given key. -/
def assocFind (l : List (Nat × Nat)) (key : Nat) : Option Nat :=
  (l.find? (fun q => decide (q.1 = key))).map (fun q => q.2)

/-- Insert a pair in front of the first strictly larger key (after all
keys that are `≤ key`); the list-model counterpart of a tree insert. -/
def entriesInsert (key : Nat) (value : Nat) : List (Nat × Nat) → List (Nat × Nat)
  | [] => [(key, value)]
  | q :: qs =>
    if key < q.1 then (key, value) :: q :: qs else q :: entriesInsert key value qs

/-! ### Invariants -/

/-- Inclusive optional lower bound. -/
def okLo : Option Nat → Nat → Prop
  | none, _ => True
  | some l, k => l ≤ k

/-- Strict optional lower bound. -/
def okLoS : Option Nat → Nat → Prop
  | none, _ => True
  | some l, k => l < k

/-- Strict optional upper bound. -/
def okHi : Option Nat → Nat → Prop
  | none, _ => True
  | some u, k => k < u

instance (lo : Option Nat) (k : Nat) : Decidable (okLo lo k) :=
  match lo with
  | none => .isTrue trivial
  | some l => inferInstanceAs (Decidable (l ≤ k))

instance (lo : Option Nat) (k : Nat) : Decidable (okLoS lo k) :=
  match lo with
  | none => .isTrue trivial
  | some l => inferInstanceAs (Decidable (l < k))

instance (hi : Option Nat) (k : Nat) : Decidable (okHi hi k) :=
  match hi with
  | none => .isTrue trivial
  | some u => inferInstanceAs (Decidable (k < u))

mutual

/-- Search-tree well-formedness of a node, for tree node size `ns`,
height `h` and the half-open key interval `[lo, hi)`.  A leaf stores
index-aligned, strictly sorted keys within the interval; an internal
node interleaves children and routing keys as
`p₀ < k₀ ≤ p₁ < k₁ ≤ ... ≤ greater`, captured by `WFSeq`.  Capacity is
deliberately not part of this predicate: lookup correctness does not
depend on it. -/
inductive WF : Nat → Nat → Option Nat → Option Nat → NodeType → Prop where
  | ext {ns : Nat} {lo hi : Option Nat} {ks : List Nat} {vs : List Nat}
      {nx : Option ExternalNode} :
      vs.length = ks.length →
      List.Chain' (· < ·) ks →
      (∀ k ∈ ks, okLo lo k) →
      (∀ k ∈ ks, okHi hi k) →
      WF ns 1 lo hi (.Ext (.mk ns ks vs nx))
  | int {ns h : Nat} {lo hi : Option Nat} {ks : List Nat} {ps : List NodeType}
      {g : NodeType} :
      WFSeq ns h hi lo ks ps g →
      WF ns (h + 1) lo hi (.Int ns ks ps g)

/-- The routing structure of an internal node, walked left to right:
each routing key `k` lies strictly above the previous separator and
below `hi`, the child before it is well formed on `[lo, k)`, and the
walk ends with the `greater` child on `[last separator, hi)`. -/
inductive WFSeq : Nat → Nat → Option Nat → Option Nat → List Nat → List NodeType → NodeType → Prop where
  | last {ns h : Nat} {hi lo : Option Nat} {g : NodeType} :
      WF ns h lo hi g →
      WFSeq ns h hi lo [] [] g
  | cons {ns h : Nat} {hi lo : Option Nat} {k : Nat} {p : NodeType}
      {ks : List Nat} {ps : List NodeType} {g : NodeType} :
      okLoS lo k →
      okHi hi k →
      WF ns h lo (some k) p →
      WFSeq ns h hi (some k) ks ps g →
      WFSeq ns h hi lo (k :: ks) (p :: ps) g

end

mutual

/-- Structural shape of a node: node-size fields all equal `ns`, key and
pointer vectors of internal nodes have equal length, leaf key and value
vectors have equal length, and all children of an internal node have
the same height (leaves at height 1). -/
inductive Shape : Nat → Nat → NodeType → Prop where
  | ext {ns : Nat} {ks : List Nat} {vs : List Nat} {nx : Option ExternalNode} :
      vs.length = ks.length →
      Shape ns 1 (.Ext (.mk ns ks vs nx))
  | int {ns h : Nat} {ks : List Nat} {ps : List NodeType} {g : NodeType} :
      ks.length = ps.length →
      ShapeAll ns h ps →
      Shape ns h g →
      Shape ns (h + 1) (.Int ns ks ps g)

inductive ShapeAll : Nat → Nat → List NodeType → Prop where
  | nil {ns h : Nat} : ShapeAll ns h []
  | cons {ns h : Nat} {p : NodeType} {ps : List NodeType} :
      Shape ns h p → ShapeAll ns h ps → ShapeAll ns h (p :: ps)

end

mutual

/-- Every node is strictly below the overflow threshold measured against
its own `node_size` field: fewer than `node_size` keys in a leaf, at
most `node_size - 2` routing keys in an internal node. -/
inductive Cap : NodeType → Prop where
  | ext {ns : Nat} {ks : List Nat} {vs : List Nat} {nx : Option ExternalNode} :
      ks.length < ns →
      Cap (.Ext (.mk ns ks vs nx))
  | int {ns : Nat} {ks : List Nat} {ps : List NodeType} {g : NodeType} :
      ks.length ≤ ns - 2 →
      CapAll ps →
      Cap g →
      Cap (.Int ns ks ps g)

inductive CapAll : List NodeType → Prop where
  | nil : CapAll []
  | cons {p : NodeType} {ps : List NodeType} :
      Cap p → CapAll ps → CapAll (p :: ps)

end

/-- The key count a node has right after reporting `Full`: exactly
`node_size` keys in a leaf, exactly `node_size - 1` in an internal node. -/
def fullKeyCount : NodeType → Prop
  | .Ext (.mk ns ks _ _) => ks.length = ns
  | .Int ns ks _ _ => ks.length = ns - 1

/-- A node at the `Full` key count whose descendants are all within
capacity — the state in which the caller immediately runs `meiosis`. -/
def FullCap : NodeType → Prop
  | .Ext (.mk ns ks _ _) => ks.length = ns
  | .Int ns ks ps g => ks.length = ns - 1 ∧ CapAll ps ∧ Cap g

/-- `m` occurs somewhere inside `n` (reflexive-transitive descent
through pointer children and `greater`). -/
inductive Subnode : NodeType → NodeType → Prop where
  | refl {n : NodeType} : Subnode n n
  | child {m p : NodeType} {ns : Nat} {ks : List Nat} {ps : List NodeType} {g : NodeType} :
      p ∈ ps → Subnode m p → Subnode m (.Int ns ks ps g)
  | greater {m : NodeType} {ns : Nat} {ks : List Nat} {ps : List NodeType} {g : NodeType} :
      Subnode m g → Subnode m (.Int ns ks ps g)

/-- Tree-level well-formedness: the stored node size matches and the
root is well formed on the unbounded interval at some height. -/
def TreeWF (ns : Nat) (t : BPlusTree) : Prop :=
  t.node_size = ns ∧ ∃ h, WF ns h none none t.root

/-- Tree-level shape invariant. -/
def TreeShape (ns : Nat) (t : BPlusTree) : Prop :=
  t.node_size = ns ∧ ∃ h, Shape ns h t.root

/-! ### Plain-match reformulations of the recursive bodies -/

theorem lookup_int_eq (ns key : Nat) (ks : List Nat) (ps : List NodeType)
    (g : NodeType) :
    (NodeType.Int ns ks ps g).lookup key = lookupAux key g ks ps := by
  simp only [NodeType.lookup, lookupAux]
  cases hd : get_child_division ks key with
  | none => rfl
  | some div =>
    simp only [hd]
    split
    · rename_i child hchild
      rw [hchild]
    · rename_i hnone
      rw [hnone]

theorem insert_int_eq (ns key value : Nat) (ks : List Nat) (ps : List NodeType)
    (g : NodeType) :
    (NodeType.Int ns ks ps g).insert key value = insertIntBody ns key value ks ps g := by
  simp only [NodeType.insert, insertIntBody]
  by_cases hcap : ¬ ks.length ≤ ns - 2
  · rw [if_pos hcap, if_pos hcap]
  · rw [if_neg hcap, if_neg hcap]
    cases hd : get_child_division ks key with
    | none => rfl
    | some pos =>
      simp only [hd]
      split
      · rename_i hnone
        rw [hnone]
      · rename_i child hchild
        rw [hchild]

/-! ### List helper lemmas -/

theorem length_listInsertAt {α : Type} (n : Nat) (a : α) (l : List α) :
    (listInsertAt n a l).length = l.length + 1 := by
  induction n generalizing l with
  | zero => simp [listInsertAt]
  | succ n ih =>
    cases l with
    | nil => simp [listInsertAt]
    | cons x xs => simp [listInsertAt, ih]

theorem position_cons (p : Nat → Bool) (k : Nat) (ks : List Nat) :
    position p (k :: ks) = if p k then some 0 else (position p ks).map (· + 1) := rfl

theorem position_eq_none {p : Nat → Bool} {ks : List Nat} :
    position p ks = none ↔ ∀ k ∈ ks, p k = false := by
  induction ks with
  | nil => simp [position]
  | cons x xs ih =>
    by_cases hx : p x <;> simp [position, hx, ih]

theorem kvIns_nil (key : Nat) (value : Nat) (vs : List Nat) :
    kvIns key value [] vs = ([key], vs ++ [value]) := rfl

theorem kvIns_cons (key : Nat) (value : Nat) (x : Nat) (xs : List Nat)
    (w : Nat) (ws : List Nat) :
    kvIns key value (x :: xs) (w :: ws) =
      if key < x then (key :: x :: xs, value :: w :: ws)
      else (x :: (kvIns key value xs ws).1, w :: (kvIns key value xs ws).2) := by
  by_cases h : key < x
  · simp [kvIns, get_insert_position, position_cons, h, listInsertAt]
  · cases hp : position (fun k => decide (key < k)) xs with
    | none => simp [kvIns, get_insert_position, position_cons, h, hp, listInsertAt]
    | some j => simp [kvIns, get_insert_position, position_cons, h, hp, listInsertAt]

theorem keyIns_eq_fst (key : Nat) (value : Nat) (ks : List Nat) (vs : List Nat) :
    (kvIns key value ks vs).1 = keyIns key ks := by
  unfold kvIns keyIns
  cases hp : get_insert_position ks key <;> simp [hp]

theorem keyIns_nil (key : Nat) : keyIns key [] = [key] := rfl

theorem keyIns_cons (key x : Nat) (xs : List Nat) :
    keyIns key (x :: xs) =
      if key < x then key :: x :: xs else x :: keyIns key xs := by
  by_cases h : key < x
  · simp [keyIns, get_insert_position, position_cons, h, listInsertAt]
  · cases hp : position (fun k => decide (key < k)) xs with
    | none => simp [keyIns, get_insert_position, position_cons, h, hp, listInsertAt]
    | some j => simp [keyIns, get_insert_position, position_cons, h, hp, listInsertAt]

theorem mem_keyIns {y key : Nat} {ks : List Nat} :
    y ∈ keyIns key ks ↔ y = key ∨ y ∈ ks := by
  induction ks with
  | nil => simp [keyIns_nil]
  | cons x xs ih =>
    rw [keyIns_cons]
    by_cases h : key < x
    · simp [h]
    · rw [if_neg h]
      simp only [List.mem_cons, ih]
      tauto

theorem length_keyIns (key : Nat) (ks : List Nat) :
    (keyIns key ks).length = ks.length + 1 := by
  unfold keyIns
  cases hp : get_insert_position ks key with
  | none => simp
  | some j => simp [length_listInsertAt]

theorem keyIns_pairwise {key : Nat} {ks : List Nat}
    (hs : List.Pairwise (· < ·) ks) (hmem : key ∉ ks) :
    List.Pairwise (· < ·) (keyIns key ks) := by
  induction ks with
  | nil => simp [keyIns_nil]
  | cons x xs ih =>
    rw [keyIns_cons]
    rcases List.pairwise_cons.mp hs with ⟨hx, hxs⟩
    by_cases h : key < x
    · rw [if_pos h]
      refine List.pairwise_cons.mpr ⟨?_, hs⟩
      intro y hy
      rcases List.mem_cons.mp hy with rfl | hy2
      · exact h
      · exact lt_trans h (hx y hy2)
    · have hne : key ≠ x := fun he => hmem (he ▸ List.mem_cons_self x xs)
      have hxk : x < key := lt_of_le_of_ne (le_of_not_lt h) (Ne.symm hne)
      rw [if_neg h]
      refine List.pairwise_cons.mpr ⟨?_, ih hxs (fun hk => hmem (List.mem_cons_of_mem x hk))⟩
      intro y hy
      rcases mem_keyIns.mp hy with rfl | hy2
      · exact hxk
      · exact hx y hy2

theorem zip_kvIns {key : Nat} {value : Nat} {ks : List Nat} {vs : List Nat}
    (hl : vs.length = ks.length) :
    ((kvIns key value ks vs).1).zip ((kvIns key value ks vs).2) =
      entriesInsert key value (ks.zip vs) := by
  induction ks generalizing vs with
  | nil =>
    cases vs with
    | nil => simp [kvIns_nil, entriesInsert]
    | cons w ws => simp at hl
  | cons x xs ih =>
    cases vs with
    | nil => simp at hl
    | cons w ws =>
      rw [kvIns_cons]
      by_cases h : key < x
      · rw [if_pos h]
        simp [entriesInsert, h, List.zip]
      · rw [if_neg h]
        have hl2 : ws.length = xs.length := by simpa using hl
        rw [List.zip_cons_cons, List.zip_cons_cons]
        simp only [entriesInsert]
        rw [if_neg h, ih hl2]

/-! ### entriesInsert and assocFind lemmas -/

theorem entriesInsert_perm (key : Nat) (value : Nat) (l : List (Nat × Nat)) :
    List.Perm (entriesInsert key value l) ((key, value) :: l) := by
  induction l with
  | nil => simp [entriesInsert]
  | cons q qs ih =>
    by_cases h : key < q.1
    · simp [entriesInsert, h]
    · simp only [entriesInsert, h, if_neg]
      exact (ih.cons q).trans (List.Perm.swap (key, value) q qs)

theorem entriesInsert_append_left {key : Nat} {value : Nat}
    {A B : List (Nat × Nat)} (hA : ∀ q ∈ A, q.1 ≤ key) :
    entriesInsert key value (A ++ B) = A ++ entriesInsert key value B := by
  induction A with
  | nil => simp
  | cons q qs ih =>
    have hq : ¬ key < q.1 := not_lt.mpr (hA q (List.mem_cons_self q qs))
    rw [List.cons_append]
    simp only [entriesInsert]
    rw [if_neg hq, ih (fun r hr => hA r (List.mem_cons_of_mem q hr)), List.cons_append]

theorem entriesInsert_append_right {key : Nat} {value : Nat}
    {A B : List (Nat × Nat)} (hB : ∀ q ∈ B, key < q.1) :
    entriesInsert key value (A ++ B) = entriesInsert key value A ++ B := by
  induction A with
  | nil =>
    cases B with
    | nil => simp [entriesInsert]
    | cons q qs =>
      rw [List.nil_append]
      simp only [entriesInsert]
      rw [if_pos (hB q (List.mem_cons_self q qs))]
      simp
  | cons q qs ih =>
    rw [List.cons_append]
    simp only [entriesInsert]
    by_cases h : key < q.1
    · rw [if_pos h, if_pos h]
      simp
    · rw [if_neg h, if_neg h, ih]
      simp

theorem assocFind_nil (key : Nat) : assocFind [] key = none := rfl

theorem assocFind_cons (q : Nat × Nat) (qs : List (Nat × Nat)) (key : Nat) :
    assocFind (q :: qs) key =
      if q.1 = key then some q.2 else assocFind qs key := by
  by_cases h : q.1 = key <;> simp [assocFind, List.find?_cons, h]

theorem assocFind_append_left {A B : List (Nat × Nat)} {key : Nat}
    (hA : ∀ q ∈ A, q.1 ≠ key) :
    assocFind (A ++ B) key = assocFind B key := by
  induction A with
  | nil => simp
  | cons q qs ih =>
    rw [List.cons_append, assocFind_cons]
    simp only [hA q (List.mem_cons_self q qs), if_neg, if_false]
    exact ih (fun r hr => hA r (List.mem_cons_of_mem q hr))

theorem assocFind_append_right {A B : List (Nat × Nat)} {key : Nat}
    (hB : ∀ q ∈ B, q.1 ≠ key) :
    assocFind (A ++ B) key = assocFind A key := by
  induction A with
  | nil =>
    rw [List.nil_append, assocFind_nil]
    induction B with
    | nil => rfl
    | cons q qs ihB =>
      rw [assocFind_cons]
      simp only [hB q (List.mem_cons_self q qs), if_neg, if_false]
      exact ihB (fun r hr => hB r (List.mem_cons_of_mem q hr))
  | cons q qs ih =>
    rw [List.cons_append, assocFind_cons, assocFind_cons]
    by_cases h : q.1 = key <;> simp [h, ih]

theorem assocFind_eq_none {l : List (Nat × Nat)} {key : Nat} :
    (∀ q ∈ l, q.1 ≠ key) → assocFind l key = none := by
  intro hl
  induction l with
  | nil => rfl
  | cons q qs ih =>
    rw [assocFind_cons]
    simp only [hl q (List.mem_cons_self q qs), if_neg, if_false]
    exact ih (fun r hr => hl r (List.mem_cons_of_mem q hr))

theorem assocFind_eq_some_of_mem {l : List (Nat × Nat)} {key : Nat} {value : Nat}
    (hnd : (l.map Prod.fst).Nodup) (hmem : (key, value) ∈ l) :
    assocFind l key = some value := by
  induction l with
  | nil => simp at hmem
  | cons q qs ih =>
    rw [assocFind_cons]
    rcases List.mem_cons.mp hmem with rfl | h2
    · simp
    · have hq : q.1 ≠ key := by
        intro he
        have : key ∈ qs.map Prod.fst := List.mem_map.mpr ⟨(key, value), h2, rfl⟩
        rw [List.map_cons] at hnd
        exact (List.nodup_cons.mp hnd).1 (he ▸ this)
      simp only [hq, if_neg, if_false]
      exact ih (by rw [List.map_cons] at hnd; exact (List.nodup_cons.mp hnd).2) h2

/-! ### Size and entries helpers -/

theorem sizeOf_child_lt {p : NodeType} {ps : List NodeType} {ns : Nat}
    {ks : List Nat} {g : NodeType} (hm : p ∈ ps) :
    sizeOf p < sizeOf (NodeType.Int ns ks ps g) := by
  have h1 := List.sizeOf_lt_of_mem hm
  simp only [NodeType.Int.sizeOf_spec]
  omega

theorem sizeOf_greater_lt {ns : Nat} {ks : List Nat} {ps : List NodeType}
    {g : NodeType} : sizeOf g < sizeOf (NodeType.Int ns ks ps g) := by
  simp only [NodeType.Int.sizeOf_spec]
  omega

theorem entries_ext (ns : Nat) (ks : List Nat) (vs : List Nat)
    (nx : Option ExternalNode) :
    (NodeType.Ext (.mk ns ks vs nx)).entries = ks.zip vs := by
  simp [NodeType.entries]

theorem entries_int (ns : Nat) (ks : List Nat) (ps : List NodeType) (g : NodeType) :
    (NodeType.Int ns ks ps g).entries = entriesList ps ++ g.entries := by
  simp [NodeType.entries]

theorem entriesList_nil : entriesList [] = [] := by
  simp [entriesList]

theorem entriesList_cons (p : NodeType) (ps : List NodeType) :
    entriesList (p :: ps) = p.entries ++ entriesList ps := by
  simp [entriesList]

theorem wfseq_lengths {ns h : Nat} {hi lo : Option Nat} {ks : List Nat}
    {ps : List NodeType} {g : NodeType} (hseq : WFSeq ns h hi lo ks ps g) :
    ks.length = ps.length := by
  induction ks generalizing lo ps with
  | nil => cases hseq; rfl
  | cons k kt ih =>
    cases hseq with
    | cons _ _ _ htail => simpa using ih htail

theorem okLo_of_okLoS_le {lo : Option Nat} {k a : Nat}
    (h1 : okLoS lo k) (h2 : k ≤ a) : okLo lo a := by
  cases lo with
  | none => trivial
  | some l => exact le_of_lt (lt_of_lt_of_le h1 h2)

theorem okLo_of_okLoS {lo : Option Nat} {k : Nat} (h1 : okLoS lo k) : okLo lo k :=
  okLo_of_okLoS_le h1 le_rfl

theorem okHi_of_lt {hi : Option Nat} {a b : Nat} (hab : a < b) (hb : okHi hi b) :
    okHi hi a := by
  cases hi with
  | none => trivial
  | some u => exact lt_trans hab hb

theorem okLoS_of_le_lt {lo : Option Nat} {a b : Nat}
    (ha : okLo lo a) (hab : a < b) : okLoS lo b := by
  cases lo with
  | none => trivial
  | some l => exact lt_of_le_of_lt ha hab

/-- Every stored entry of a well-formed node lies in the node's
interval `[lo, hi)`. -/
theorem entries_bounds :
    ∀ (N : Nat) (n : NodeType) {ns h : Nat} {lo hi : Option Nat},
      sizeOf n < N → WF ns h lo hi n →
      ∀ q ∈ n.entries, okLo lo q.1 ∧ okHi hi q.1 := by
  intro N
  induction N with
  | zero => intro n ns h lo hi hsz; omega
  | succ N ih =>
    intro n ns h lo hi hsz hwf q hq
    cases hwf with
    | ext hlv hch hklo hkhi =>
      rw [entries_ext] at hq
      obtain ⟨a, b⟩ := q
      have hma := (List.of_mem_zip hq).1
      exact ⟨hklo a hma, hkhi a hma⟩
    | int hseq =>
      rename_i h2 ks ps g
      rw [entries_int] at hq
      have hsg : sizeOf g < N :=
        lt_of_lt_of_le sizeOf_greater_lt (Nat.lt_succ_iff.mp hsz)
      have hsps : ∀ p ∈ ps, sizeOf p < N :=
        fun p hp => lt_of_lt_of_le (sizeOf_child_lt hp) (Nat.lt_succ_iff.mp hsz)
      have walk : ∀ (ks' : List Nat) (ps' : List NodeType) (lo' : Option Nat),
          WFSeq ns h2 hi lo' ks' ps' g → (∀ p ∈ ps', sizeOf p < N) →
          ∀ r ∈ entriesList ps' ++ g.entries, okLo lo' r.1 ∧ okHi hi r.1 := by
        intro ks'
        induction ks' with
        | nil =>
          intro ps' lo' hseq' hsz' r hr
          cases hseq' with
          | last hg =>
            rw [entriesList_nil, List.nil_append] at hr
            exact ih g hsg hg r hr
        | cons k kt ihk =>
          intro ps' lo' hseq' hsz' r hr
          cases hseq' with
          | cons hko hkh hp htail =>
            rename_i p pt
            rw [entriesList_cons, List.append_assoc] at hr
            rcases List.mem_append.mp hr with hr1 | hr2
            · have hb := ih p (hsz' p (List.mem_cons_self p pt)) hp r hr1
              exact ⟨hb.1, okHi_of_lt hb.2 hkh⟩
            · have hb := ihk pt (some k) htail
                (fun p2 hp2 => hsz' p2 (List.mem_cons_of_mem p hp2)) r hr2
              exact ⟨okLo_of_okLoS_le hko hb.1, hb.2⟩
      exact walk ks ps lo hseq hsps q hq

theorem okLo_some {l k : Nat} : okLo (some l) k ↔ l ≤ k := Iff.rfl

theorem okLoS_some {l k : Nat} : okLoS (some l) k ↔ l < k := Iff.rfl

theorem okHi_some {u k : Nat} : okHi (some u) k ↔ k < u := Iff.rfl

theorem okLo_none {k : Nat} : okLo none k := trivial

theorem okLoS_none {k : Nat} : okLoS none k := trivial

theorem okHi_none {k : Nat} : okHi none k := trivial

/-- `entries_bounds` without the explicit size bound. -/
theorem entries_bounds2 {n : NodeType} {ns h : Nat} {lo hi : Option Nat}
    (hwf : WF ns h lo hi n) : ∀ q ∈ n.entries, okLo lo q.1 ∧ okHi hi q.1 :=
  entries_bounds (sizeOf n + 1) n (Nat.lt_succ_self _) hwf

/-- Bounds for the combined entries of a routing chain. -/
theorem seq_entries_bounds {ns h : Nat} {hi lo : Option Nat} {ks : List Nat}
    {ps : List NodeType} {g : NodeType} (hseq : WFSeq ns h hi lo ks ps g) :
    ∀ q ∈ entriesList ps ++ g.entries, okLo lo q.1 ∧ okHi hi q.1 := by
  induction ks generalizing lo ps with
  | nil =>
    cases hseq with
    | last hg =>
      intro q hq
      rw [entriesList_nil, List.nil_append] at hq
      exact entries_bounds2 hg q hq
  | cons k kt ih =>
    cases hseq with
    | cons hko hkh hp htail =>
      rename_i p pt
      intro q hq
      rw [entriesList_cons, List.append_assoc] at hq
      rcases List.mem_append.mp hq with hq1 | hq2
      · have hb := entries_bounds2 hp q hq1
        exact ⟨hb.1, okHi_of_lt hb.2 hkh⟩
      · have hb := ih htail q hq2
        exact ⟨okLo_of_okLoS_le hko hb.1, hb.2⟩

theorem gcd_nil (key : Nat) : get_child_division [] key = none := rfl

theorem gcd_cons (k : Nat) (ks : List Nat) (key : Nat) :
    get_child_division (k :: ks) key =
      if key < k then some 0 else (get_child_division ks key).map (· + 1) := by
  by_cases h : key < k <;> simp [get_child_division, position_cons, h]

/-- Lookup on a well-formed node is association-list lookup on its
entries. -/
theorem lookup_eq :
    ∀ (N : Nat) (n : NodeType) {ns h : Nat} {lo hi : Option Nat} {key : Nat},
      sizeOf n < N → WF ns h lo hi n →
      n.lookup key = assocFind n.entries key := by
  intro N
  induction N with
  | zero => intro n ns h lo hi key hsz; omega
  | succ N ih =>
    intro n ns h lo hi key hsz hwf
    cases hwf with
    | ext hlv hch hklo hkhi =>
      rw [entries_ext]
      simp [NodeType.lookup, ExternalNode.lookup, assocFind]
    | int hseq =>
      rename_i h2 ks ps g
      rw [entries_int]
      have hsg : sizeOf g < N :=
        lt_of_lt_of_le sizeOf_greater_lt (Nat.lt_succ_iff.mp hsz)
      have hsps : ∀ p ∈ ps, sizeOf p < N :=
        fun p hp => lt_of_lt_of_le (sizeOf_child_lt hp) (Nat.lt_succ_iff.mp hsz)
      have walk : ∀ (ks2 : List Nat) (ps2 : List NodeType) (lo2 : Option Nat),
          WFSeq ns h2 hi lo2 ks2 ps2 g → (∀ p ∈ ps2, sizeOf p < N) →
          lookupAux key g ks2 ps2 =
            assocFind (entriesList ps2 ++ g.entries) key := by
        intro ks2
        induction ks2 with
        | nil =>
          intro ps2 lo2 hseq2 hsz2
          cases hseq2 with
          | last hg =>
            rw [entriesList_nil, List.nil_append]
            simp only [lookupAux, gcd_nil]
            exact ih g hsg hg
        | cons k kt ihk =>
          intro ps2 lo2 hseq2 hsz2
          cases hseq2 with
          | cons hko hkh hp htail =>
            rename_i p pt
            rw [entriesList_cons, List.append_assoc]
            by_cases hkey : key < k
            · have hrest : ∀ q ∈ entriesList pt ++ g.entries, q.1 ≠ key := by
                intro q hq
                have hb := (seq_entries_bounds htail q hq).1
                rw [okLo_some] at hb
                omega
              rw [assocFind_append_right hrest]
              have hlook := @ih p ns h2 lo2 (some k) key (hsz2 p (List.mem_cons_self p pt)) hp
              simp only [lookupAux, gcd_cons, if_pos hkey, List.getElem?_cons_zero]
              exact hlook
            · have hleft : ∀ q ∈ p.entries, q.1 ≠ key := by
                intro q hq
                have hb := (entries_bounds2 hp q hq).2
                rw [okHi_some] at hb
                omega
              rw [assocFind_append_left hleft]
              have htail2 := ihk pt (some k) htail
                (fun p2 hp2 => hsz2 p2 (List.mem_cons_of_mem p hp2))
              simp only [lookupAux, gcd_cons, if_neg hkey] at htail2 ⊢
              cases hd : get_child_division kt key with
              | none =>
                simp only [hd] at htail2 ⊢
                simpa using htail2
              | some j =>
                simp only [hd] at htail2 ⊢
                simpa using htail2
      rw [lookup_int_eq]
      exact walk ks ps lo hseq hsps

/-- `lookup_eq` without the explicit size bound. -/
theorem lookup_eq2 {n : NodeType} {ns h : Nat} {lo hi : Option Nat} {key : Nat}
    (hwf : WF ns h lo hi n) : n.lookup key = assocFind n.entries key :=
  lookup_eq (sizeOf n + 1) n (Nat.lt_succ_self _) hwf

/-! ### Split helpers -/

theorem okLoS_of_lt {lo : Option Nat} {a b : Nat} (h1 : okLoS lo a) (h2 : a < b) :
    okLoS lo b := by
  cases lo with
  | none => trivial
  | some l2 => exact lt_trans h1 h2

theorem zip_take_drop (n : Nat) (ks : List Nat) (vs : List Nat)
    (hl : vs.length = ks.length) :
    (ks.take n).zip (vs.take n) ++ (ks.drop n).zip (vs.drop n) = ks.zip vs := by
  conv_rhs => rw [← List.take_append_drop n ks, ← List.take_append_drop n vs]
  rw [List.zip_append (by simp [hl])]

theorem chain_split {ks : List Nat} {d : Nat} {sep : Nat} {lks : List Nat}
    (hch : List.Chain' (· < ·) ks) (hd : ks.drop d = sep :: lks) :
    List.Chain' (· < ·) (ks.take d) ∧ List.Chain' (· < ·) (sep :: lks) ∧
    (∀ x ∈ ks.take d, x < sep) ∧ (∀ x ∈ lks, sep < x) := by
  have hp : List.Pairwise (· < ·) ks := List.chain'_iff_pairwise.mp hch
  have hp2 : List.Pairwise (· < ·) (ks.take d ++ ks.drop d) := by
    rw [List.take_append_drop]
    exact hp
  rcases List.pairwise_append.mp hp2 with ⟨hp_take, hp_drop, hcross⟩
  rw [hd] at hp_drop hcross
  refine ⟨List.chain'_iff_pairwise.mpr hp_take,
    List.chain'_iff_pairwise.mpr hp_drop, ?_, ?_⟩
  · exact fun x hx => hcross x hx sep (List.mem_cons_self sep lks)
  · exact fun x hx => (List.pairwise_cons.mp hp_drop).1 x hx

/-- Splitting a routing chain at index `d` (where both drops are
nonempty) yields two well-formed chains separated by the key at `d`. -/
theorem wfseq_split :
    ∀ (d : Nat) {ns h : Nat} {hi lo : Option Nat} {ks : List Nat}
      {ps : List NodeType} {g : NodeType} {sep : Nat} {lks : List Nat}
      {lpf : NodeType} {lps : List NodeType},
      WFSeq ns h hi lo ks ps g →
      ks.drop d = sep :: lks → ps.drop d = lpf :: lps →
      WFSeq ns h (some sep) lo (ks.take d) (ps.take d) lpf ∧
      WFSeq ns h hi (some sep) lks lps g ∧
      okLoS lo sep ∧ okHi hi sep ∧
      entriesList ps ++ g.entries =
        (entriesList (ps.take d) ++ lpf.entries) ++ (entriesList lps ++ g.entries) := by
  intro d
  induction d with
  | zero =>
    intro ns h hi lo ks ps g sep lks lpf lps hseq hdk hdp
    simp only [List.drop_zero] at hdk hdp
    subst hdk
    subst hdp
    cases hseq with
    | cons hko hkh hp htail =>
      refine ⟨?_, htail, hko, hkh, ?_⟩
      · rw [List.take_zero, List.take_zero]
        exact WFSeq.last hp
      · rw [List.take_zero]
        simp [entriesList_nil, entriesList_cons, List.append_assoc]
  | succ d ihd =>
    intro ns h hi lo ks ps g sep lks lpf lps hseq hdk hdp
    cases hseq with
    | last hg => simp at hdk
    | cons hko hkh hp htail =>
      rename_i k p kt pt
      rw [List.drop_succ_cons] at hdk hdp
      obtain ⟨hseqL, hseqR, hsep_lo, hsep_hi, hent⟩ := ihd htail hdk hdp
      have hksep : k < sep := hsep_lo
      refine ⟨?_, hseqR, okLoS_of_lt hko hksep, hsep_hi, ?_⟩
      · rw [List.take_succ_cons, List.take_succ_cons]
        exact WFSeq.cons hko (okHi_some.mpr hksep) hp hseqL
      · rw [List.take_succ_cons]
        simp only [entriesList_cons, List.append_assoc] at hent ⊢
        rw [hent]

/-- Splitting a full well-formed node via `meiosis` yields two
well-formed halves around the separator, preserving the entries. -/
theorem meiosis_wf {m f l : NodeType} {sep : Nat} {ns h : Nat} {lo hi : Option Nat}
    (hwf : WF ns h lo hi m) (hfull : fullKeyCount m)
    (hm : m.meiosis = some (f, l, sep)) :
    WF ns h lo (some sep) f ∧ WF ns h (some sep) hi l ∧
    okLoS lo sep ∧ okHi hi sep ∧
    f.entries ++ l.entries = m.entries := by
  cases hwf with
  | ext hlv hch hklo hkhi =>
    rename_i ks vs nx
    have hklen : ks.length = ns := hfull
    simp only [NodeType.meiosis, ExternalNode.meiosis] at hm
    cases hdrop : ks.drop ((ns + 1) >>> 1) with
    | nil =>
      rw [hdrop] at hm
      simp at hm
    | cons sep2 lks =>
      rw [hdrop] at hm
      simp only [Option.map_some', Option.some.injEq, Prod.mk.injEq] at hm
      obtain ⟨hf, hl, hsep⟩ := hm
      subst hf
      subst hl
      subst hsep
      obtain ⟨hchT, hchD, hlt, hgt⟩ := chain_split hch hdrop
      have hcut_lt : (ns + 1) >>> 1 < ks.length := by
        by_contra hcl
        rw [List.drop_eq_nil_of_le (le_of_not_lt hcl)] at hdrop
        exact List.noConfusion hdrop
      have hns1 : 1 ≤ ns := by
        rw [hklen] at hcut_lt
        omega
      have hcut1 : 1 ≤ (ns + 1) >>> 1 := by
        rw [Nat.shiftRight_one]
        omega
      have hlend : ks.length - (ns + 1) >>> 1 = lks.length + 1 := by
        have hld := congrArg List.length hdrop
        rw [List.length_drop] at hld
        simpa using hld
      have hsep_mem : sep2 ∈ ks := by
        refine List.drop_subset ((ns + 1) >>> 1) ks ?_
        rw [hdrop]
        exact List.mem_cons_self sep2 lks
      refine ⟨?_, ?_, ?_, hkhi sep2 hsep_mem, ?_⟩
      · refine WF.ext (by simp [hlv]) hchT
          (fun x hx => hklo x (List.take_subset _ ks hx)) ?_
        intro x hx
        exact okHi_some.mpr (hlt x hx)
      · refine WF.ext ?_ hchD ?_ ?_
        · rw [List.length_drop, List.length_cons, hlv, hlend]
        · intro x hx
          rw [okLo_some]
          rcases List.mem_cons.mp hx with rfl | hx2
          · exact le_rfl
          · exact le_of_lt (hgt x hx2)
        · intro x hx
          refine hkhi x (List.drop_subset ((ns + 1) >>> 1) ks ?_)
          rw [hdrop]
          exact hx
      · have hpos : 0 < (ks.take ((ns + 1) >>> 1)).length := by
          rw [List.length_take]
          exact lt_min_iff.mpr ⟨hcut1, by omega⟩
        obtain ⟨x0, hx0⟩ := List.exists_mem_of_ne_nil _ (List.ne_nil_of_length_pos hpos)
        exact okLoS_of_le_lt (hklo x0 (List.take_subset _ ks hx0)) (hlt x0 hx0)
      · rw [entries_ext, entries_ext, entries_ext, ← hdrop]
        exact zip_take_drop _ ks vs hlv
  | int hseq =>
    rename_i h2 ks ps g
    simp only [NodeType.meiosis] at hm
    have hlen := wfseq_lengths hseq
    by_cases hguard : ps.length < 3 ∨ ks.length < 3
    · rw [if_pos hguard] at hm
      exact Option.noConfusion hm
    · rw [if_neg hguard] at hm
      cases hdk : ks.drop (ns >>> 1 - 1) with
      | nil =>
        rw [hdk] at hm
        cases hdp : ps.drop (ns >>> 1 - 1) <;> rw [hdp] at hm <;>
          exact Option.noConfusion hm
      | cons lkf lks =>
        cases hdp : ps.drop (ns >>> 1 - 1) with
        | nil =>
          rw [hdk, hdp] at hm
          exact Option.noConfusion hm
        | cons lpf lps =>
          rw [hdk, hdp] at hm
          simp only [Option.some.injEq, Prod.mk.injEq] at hm
          obtain ⟨hf, hl, hsep⟩ := hm
          subst hf
          subst hl
          subst hsep
          obtain ⟨hseqL, hseqR, hsep_lo, hsep_hi, hent⟩ := wfseq_split _ hseq hdk hdp
          refine ⟨WF.int hseqL, WF.int hseqR, hsep_lo, hsep_hi, ?_⟩
          rw [entries_int, entries_int, entries_int]
          exact hent.symm

/-! ### Routing-division facts and chain surgery -/

theorem gcd_some_zero {k key : Nat} {kt : List Nat}
    (h : get_child_division (k :: kt) key = some 0) : key < k := by
  rw [gcd_cons] at h
  by_cases hk : key < k
  · exact hk
  · rw [if_neg hk] at h
    cases hd : get_child_division kt key <;> rw [hd] at h <;> simp at h

theorem gcd_some_succ {k key : Nat} {kt : List Nat} {pos : Nat}
    (h : get_child_division (k :: kt) key = some (pos + 1)) :
    ¬ key < k ∧ get_child_division kt key = some pos := by
  rw [gcd_cons] at h
  by_cases hk : key < k
  · rw [if_pos hk] at h
    simp at h
  · rw [if_neg hk] at h
    refine ⟨hk, ?_⟩
    cases hd : get_child_division kt key with
    | none => rw [hd] at h; simp at h
    | some j =>
      rw [hd] at h
      simp only [Option.map_some', Option.some.injEq] at h
      have hj : j = pos := by omega
      rw [hj]

theorem gcd_none_cons {k key : Nat} {kt : List Nat}
    (h : get_child_division (k :: kt) key = none) :
    ¬ key < k ∧ get_child_division kt key = none := by
  rw [gcd_cons] at h
  by_cases hk : key < k
  · rw [if_pos hk] at h
    simp at h
  · rw [if_neg hk] at h
    refine ⟨hk, ?_⟩
    cases hd : get_child_division kt key with
    | none => rfl
    | some j => rw [hd] at h; simp at h

theorem listInsertAt_zero {α : Type} (a : α) (l : List α) :
    listInsertAt 0 a l = a :: l := rfl

theorem listInsertAt_succ_cons {α : Type} (n : Nat) (a x : α) (xs : List α) :
    listInsertAt (n + 1) a (x :: xs) = x :: listInsertAt n a xs := rfl

theorem listSet_cons_zero {α : Type} (a b : α) (l : List α) :
    (a :: l).set 0 b = b :: l := rfl

theorem listSet_cons_succ {α : Type} (a b : α) (l : List α) (n : Nat) :
    (a :: l).set (n + 1) b = a :: l.set n b := rfl

theorem entriesList_subset {p : NodeType} {ps : List NodeType} (hm : p ∈ ps) :
    ∀ q ∈ p.entries, q ∈ entriesList ps := by
  induction ps with
  | nil => cases hm
  | cons p2 pt ih =>
    intro q hq
    rw [entriesList_cons]
    rcases List.mem_cons.mp hm with rfl | hm2
    · exact List.mem_append_left _ hq
    · exact List.mem_append_right _ (ih hm2 q hq)

theorem kvIns_snd_length {key value : Nat} {ks vs : List Nat}
    (hl : vs.length = ks.length) :
    (kvIns key value ks vs).2.length = (kvIns key value ks vs).1.length := by
  unfold kvIns
  cases hp : get_insert_position ks key with
  | none => simp [hl]
  | some p => simp [length_listInsertAt, hl]

/-- Updating the child at `pos` in place (the child reported `Open`). -/
theorem wfseq_update_at {ns h : Nat} {hi : Option Nat} {g : NodeType}
    {key value : Nat} :
    ∀ (pos : Nat) {ks : List Nat} {ps : List NodeType} {lo : Option Nat},
      WFSeq ns h hi lo ks ps g →
      get_child_division ks key = some pos →
      okLo lo key →
      ∀ {child : NodeType}, ps[pos]? = some child →
      ∀ {child2 : NodeType},
      (∀ plo phi, WF ns h plo phi child → okLo plo key → okHi phi key →
        WF ns h plo phi child2 ∧
        child2.entries = entriesInsert key value child.entries) →
      WFSeq ns h hi lo ks (ps.set pos child2) g ∧
      entriesList (ps.set pos child2) ++ g.entries =
        entriesInsert key value (entriesList ps ++ g.entries) := by
  intro pos
  induction pos with
  | zero =>
    intro ks ps lo hseq hdiv hklo child hchild child2 hstep
    cases hseq with
    | last hg => rw [gcd_nil] at hdiv; exact Option.noConfusion hdiv
    | cons hko hkh hp htail =>
      rename_i k p kt pt
      have hkey : key < k := gcd_some_zero hdiv
      rw [List.getElem?_cons_zero, Option.some.injEq] at hchild
      subst hchild
      obtain ⟨hwf2, hent2⟩ := hstep lo (some k) hp hklo (okHi_some.mpr hkey)
      rw [listSet_cons_zero]
      constructor
      · exact WFSeq.cons hko hkh hwf2 htail
      · rw [entriesList_cons, entriesList_cons, List.append_assoc, List.append_assoc]
        have hrest : ∀ q ∈ entriesList pt ++ g.entries, key < q.1 := by
          intro q hq
          have hb := (seq_entries_bounds htail q hq).1
          rw [okLo_some] at hb
          omega
        rw [entriesInsert_append_right hrest, hent2]
  | succ pos ih =>
    intro ks ps lo hseq hdiv hklo child hchild child2 hstep
    cases hseq with
    | last hg => rw [gcd_nil] at hdiv; exact Option.noConfusion hdiv
    | cons hko hkh hp htail =>
      rename_i k p kt pt
      obtain ⟨hkey, hdiv2⟩ := gcd_some_succ hdiv
      rw [List.getElem?_cons_succ] at hchild
      obtain ⟨hseq2, hent2⟩ := ih htail hdiv2 (okLo_some.mpr (le_of_not_lt hkey))
        hchild hstep
      rw [listSet_cons_succ]
      constructor
      · exact WFSeq.cons hko hkh hp hseq2
      · rw [entriesList_cons, entriesList_cons, List.append_assoc, List.append_assoc]
        have hleft : ∀ q ∈ p.entries, q.1 ≤ key := by
          intro q hq
          have hb := (entries_bounds2 hp q hq).2
          rw [okHi_some] at hb
          omega
        rw [entriesInsert_append_left hleft, hent2]

/-- Splicing split halves and the separator at `pos` (the child reported
`Full` and was split). -/
theorem wfseq_split_at {ns h : Nat} {hi : Option Nat} {g : NodeType}
    {key value : Nat} :
    ∀ (pos : Nat) {ks : List Nat} {ps : List NodeType} {lo : Option Nat},
      WFSeq ns h hi lo ks ps g →
      get_child_division ks key = some pos →
      okLo lo key →
      ∀ {child : NodeType}, ps[pos]? = some child →
      ∀ {f l : NodeType} {sep : Nat},
      (∀ plo phi, WF ns h plo phi child → okLo plo key → okHi phi key →
        WF ns h plo (some sep) f ∧ WF ns h (some sep) phi l ∧
        okLoS plo sep ∧ okHi phi sep ∧
        f.entries ++ l.entries = entriesInsert key value child.entries) →
      WFSeq ns h hi lo (listInsertAt pos sep ks) (listInsertAt pos f (ps.set pos l)) g ∧
      entriesList (listInsertAt pos f (ps.set pos l)) ++ g.entries =
        entriesInsert key value (entriesList ps ++ g.entries) := by
  intro pos
  induction pos with
  | zero =>
    intro ks ps lo hseq hdiv hklo child hchild f l sep hstep
    cases hseq with
    | last hg => rw [gcd_nil] at hdiv; exact Option.noConfusion hdiv
    | cons hko hkh hp htail =>
      rename_i k p kt pt
      have hkey : key < k := gcd_some_zero hdiv
      rw [List.getElem?_cons_zero, Option.some.injEq] at hchild
      subst hchild
      obtain ⟨hwff, hwfl, hsep_lo, hsep_hi, hent2⟩ :=
        hstep lo (some k) hp hklo (okHi_some.mpr hkey)
      rw [okHi_some] at hsep_hi
      rw [listSet_cons_zero]
      constructor
      · refine WFSeq.cons hsep_lo (okHi_of_lt hsep_hi hkh) hwff ?_
        exact WFSeq.cons (okLoS_some.mpr hsep_hi) hkh hwfl htail
      · have hrest : ∀ q ∈ entriesList pt ++ g.entries, key < q.1 := by
          intro q hq
          have hb := (seq_entries_bounds htail q hq).1
          rw [okLo_some] at hb
          omega
        rw [listInsertAt_zero, entriesList_cons, entriesList_cons,
          List.append_assoc, List.append_assoc, entriesList_cons,
          List.append_assoc, entriesInsert_append_right hrest, ← hent2,
          List.append_assoc]
  | succ pos ih =>
    intro ks ps lo hseq hdiv hklo child hchild f l sep hstep
    cases hseq with
    | last hg => rw [gcd_nil] at hdiv; exact Option.noConfusion hdiv
    | cons hko hkh hp htail =>
      rename_i k p kt pt
      obtain ⟨hkey, hdiv2⟩ := gcd_some_succ hdiv
      rw [List.getElem?_cons_succ] at hchild
      obtain ⟨hseq2, hent2⟩ := ih htail hdiv2 (okLo_some.mpr (le_of_not_lt hkey))
        hchild hstep
      rw [listSet_cons_succ, listInsertAt_succ_cons, listInsertAt_succ_cons]
      constructor
      · exact WFSeq.cons hko hkh hp hseq2
      · rw [entriesList_cons, entriesList_cons, List.append_assoc, List.append_assoc]
        have hleft : ∀ q ∈ p.entries, q.1 ≤ key := by
          intro q hq
          have hb := (entries_bounds2 hp q hq).2
          rw [okHi_some] at hb
          omega
        rw [entriesInsert_append_left hleft, hent2]

/-- Replacing the `greater` child in place (it reported `Open`). -/
theorem wfseq_greater_open {ns h : Nat} {hi : Option Nat} {g : NodeType}
    {key value : Nat} :
    ∀ {ks : List Nat} {ps : List NodeType} {lo : Option Nat},
      WFSeq ns h hi lo ks ps g →
      get_child_division ks key = none →
      okLo lo key →
      ∀ {g2 : NodeType},
      (∀ glo, WF ns h glo hi g → okLo glo key →
        WF ns h glo hi g2 ∧ g2.entries = entriesInsert key value g.entries) →
      WFSeq ns h hi lo ks ps g2 ∧
      entriesList ps ++ g2.entries =
        entriesInsert key value (entriesList ps ++ g.entries) := by
  intro ks
  induction ks with
  | nil =>
    intro ps lo hseq hdiv hklo g2 hstep
    cases hseq with
    | last hg =>
      obtain ⟨hwf2, hent2⟩ := hstep lo hg hklo
      exact ⟨WFSeq.last hwf2, by
        rw [entriesList_nil, List.nil_append, List.nil_append, hent2]⟩
  | cons k kt ih =>
    intro ps lo hseq hdiv hklo g2 hstep
    cases hseq with
    | cons hko hkh hp htail =>
      rename_i p pt
      obtain ⟨hkey, hdiv2⟩ := gcd_none_cons hdiv
      obtain ⟨hseq2, hent2⟩ := ih htail hdiv2 (okLo_some.mpr (le_of_not_lt hkey)) hstep
      constructor
      · exact WFSeq.cons hko hkh hp hseq2
      · rw [entriesList_cons, List.append_assoc, List.append_assoc]
        have hleft : ∀ q ∈ p.entries, q.1 ≤ key := by
          intro q hq
          have hb := (entries_bounds2 hp q hq).2
          rw [okHi_some] at hb
          omega
        rw [entriesInsert_append_left hleft, hent2]

/-- Absorbing a split of the `greater` child: append the separator and
the left half, install the right half as the new `greater`. -/
theorem wfseq_greater_split {ns h : Nat} {hi : Option Nat} {g : NodeType}
    {key value : Nat} :
    ∀ {ks : List Nat} {ps : List NodeType} {lo : Option Nat},
      WFSeq ns h hi lo ks ps g →
      get_child_division ks key = none →
      okLo lo key →
      ∀ {f l : NodeType} {sep : Nat},
      (∀ glo, WF ns h glo hi g → okLo glo key →
        WF ns h glo (some sep) f ∧ WF ns h (some sep) hi l ∧
        okLoS glo sep ∧ okHi hi sep ∧
        f.entries ++ l.entries = entriesInsert key value g.entries) →
      WFSeq ns h hi lo (ks ++ [sep]) (ps ++ [f]) l ∧
      entriesList (ps ++ [f]) ++ l.entries =
        entriesInsert key value (entriesList ps ++ g.entries) := by
  intro ks
  induction ks with
  | nil =>
    intro ps lo hseq hdiv hklo f l sep hstep
    cases hseq with
    | last hg =>
      obtain ⟨hwff, hwfl, hsep_lo, hsep_hi, hent2⟩ := hstep lo hg hklo
      constructor
      · rw [List.nil_append]
        exact WFSeq.cons hsep_lo hsep_hi hwff (WFSeq.last hwfl)
      · rw [entriesList_nil, List.nil_append, List.nil_append, entriesList_cons,
          entriesList_nil, List.append_nil, ← hent2]
  | cons k kt ih =>
    intro ps lo hseq hdiv hklo f l sep hstep
    cases hseq with
    | cons hko hkh hp htail =>
      rename_i p pt
      obtain ⟨hkey, hdiv2⟩ := gcd_none_cons hdiv
      obtain ⟨hseq2, hent2⟩ := ih htail hdiv2 (okLo_some.mpr (le_of_not_lt hkey)) hstep
      constructor
      · rw [List.cons_append, List.cons_append]
        exact WFSeq.cons hko hkh hp hseq2
      · rw [List.cons_append, entriesList_cons, entriesList_cons,
          List.append_assoc, List.append_assoc]
        have hleft : ∀ q ∈ p.entries, q.1 ≤ key := by
          intro q hq
          have hb := (entries_bounds2 hp q hq).2
          rw [okHi_some] at hb
          omega
        rw [entriesInsert_append_left hleft, hent2]

theorem mem_of_getElem2 {α : Type} {ps : List α} {i : Nat} {c : α}
    (h : ps[i]? = some c) : c ∈ ps := by
  obtain ⟨hlt, hget⟩ := List.getElem?_eq_some.mp h
  exact hget ▸ List.getElem_mem hlt

/-- Main insert correctness: on a well-formed node, a successful insert
of a fresh key within the node's interval preserves well-formedness,
performs the list-model insertion on the entries, and reports `Full`
exactly at the overflow key count. -/
theorem insert_spec :
    ∀ (N : Nat) (n : NodeType) {ns h : Nat} {lo hi : Option Nat}
      {key value : Nat} {n2 : NodeType} {res : InsertResult},
      sizeOf n < N → WF ns h lo hi n →
      okLo lo key → okHi hi key →
      (∀ q ∈ n.entries, q.1 ≠ key) →
      n.insert key value = .ok (n2, res) →
      WF ns h lo hi n2 ∧
      n2.entries = entriesInsert key value n.entries ∧
      (res = .Full → fullKeyCount n2) := by
  intro N
  induction N with
  | zero => intro n ns h lo hi key value n2 res hsz; omega
  | succ N ih =>
    intro n ns h lo hi key value n2 res hsz hwf hklo hkhi hfresh hins
    cases hwf with
    | ext hlv hch hklo2 hkhi2 =>
      rename_i ks vs nx
      simp only [NodeType.insert, ExternalNode.insert] at hins
      by_cases hcap : ns ≤ ks.length
      · rw [if_pos hcap] at hins
        simp [Except.map] at hins
      · rw [if_neg hcap] at hins
        simp only [Except.map, Except.ok.injEq, Prod.mk.injEq] at hins
        obtain ⟨hn2, hres⟩ := hins
        subst hn2
        subst hres
        have hknot : key ∉ ks := by
          intro hk
          have hmf : ks = (ks.zip vs).map Prod.fst :=
            (List.map_fst_zip ks vs (le_of_eq hlv.symm)).symm
          rw [hmf] at hk
          obtain ⟨q, hq, hq1⟩ := List.mem_map.mp hk
          exact hfresh q (by rw [entries_ext]; exact hq) hq1
        refine ⟨?_, ?_, ?_⟩
        · refine WF.ext (kvIns_snd_length hlv) ?_ ?_ ?_
          · rw [keyIns_eq_fst]
            exact List.chain'_iff_pairwise.mpr
              (keyIns_pairwise (List.chain'_iff_pairwise.mp hch) hknot)
          · intro x hx
            rw [keyIns_eq_fst] at hx
            rcases mem_keyIns.mp hx with rfl | hx2
            · exact hklo
            · exact hklo2 x hx2
          · intro x hx
            rw [keyIns_eq_fst] at hx
            rcases mem_keyIns.mp hx with rfl | hx2
            · exact hkhi
            · exact hkhi2 x hx2
        · rw [entries_ext, entries_ext]
          exact zip_kvIns hlv
        · intro hfl
          by_cases hfull2 : (kvIns key value ks vs).1.length = ns
          · exact hfull2
          · rw [if_neg hfull2] at hfl
            exact InsertResult.noConfusion hfl
    | int hseq =>
      rename_i h2 ks ps g
      rw [insert_int_eq] at hins
      simp only [insertIntBody] at hins
      by_cases hcap : ¬ ks.length ≤ ns - 2
      · rw [if_pos hcap] at hins
        exact Except.noConfusion hins
      · rw [if_neg hcap] at hins
        have hsg : sizeOf g < N :=
          lt_of_lt_of_le sizeOf_greater_lt (Nat.lt_succ_iff.mp hsz)
        have hsps : ∀ p ∈ ps, sizeOf p < N :=
          fun p hp => lt_of_lt_of_le (sizeOf_child_lt hp) (Nat.lt_succ_iff.mp hsz)
        cases hdiv : get_child_division ks key with
        | some pos =>
          simp only [hdiv] at hins
          cases hchild : ps[pos]? with
          | none =>
            simp only [hchild] at hins
            exact Except.noConfusion hins
          | some child =>
            simp only [hchild] at hins
            have hmem : child ∈ ps := mem_of_getElem2 hchild
            have hszc : sizeOf child < N := hsps child hmem
            have hfreshc : ∀ q ∈ child.entries, q.1 ≠ key := by
              intro q hq
              refine hfresh q ?_
              rw [entries_int]
              exact List.mem_append_left _ (entriesList_subset hmem q hq)
            cases htr : child.insert key value with
            | error e =>
              simp only [htr] at hins
              exact Except.noConfusion hins
            | ok cr =>
              obtain ⟨child2, r⟩ := cr
              simp only [htr] at hins
              cases r with
              | Open =>
                simp only [Except.ok.injEq, Prod.mk.injEq] at hins
                obtain ⟨hn2, hres⟩ := hins
                subst hn2
                subst hres
                have hstep : ∀ plo phi, WF ns h2 plo phi child → okLo plo key →
                    okHi phi key → WF ns h2 plo phi child2 ∧
                    child2.entries = entriesInsert key value child.entries := by
                  intro plo phi hw hl hh
                  obtain ⟨ha, hb, _⟩ := ih child hszc hw hl hh hfreshc htr
                  exact ⟨ha, hb⟩
                obtain ⟨hseq2, hent2⟩ := wfseq_update_at pos hseq hdiv hklo hchild hstep
                refine ⟨WF.int hseq2, ?_, ?_⟩
                · rw [entries_int, entries_int]
                  exact hent2
                · intro hfl
                  exact InsertResult.noConfusion hfl
              | Full =>
                cases hms : child2.meiosis with
                | none =>
                  simp only [hms] at hins
                  exact Except.noConfusion hins
                | some tr =>
                  obtain ⟨former, rest⟩ := tr
                  obtain ⟨latter, sep⟩ := rest
                  simp only [hms] at hins
                  simp only [Except.ok.injEq, Prod.mk.injEq] at hins
                  obtain ⟨hn2, hres⟩ := hins
                  subst hn2
                  subst hres
                  have hstep : ∀ plo phi, WF ns h2 plo phi child → okLo plo key →
                      okHi phi key →
                      WF ns h2 plo (some sep) former ∧
                      WF ns h2 (some sep) phi latter ∧
                      okLoS plo sep ∧ okHi phi sep ∧
                      former.entries ++ latter.entries =
                        entriesInsert key value child.entries := by
                    intro plo phi hw hl hh
                    obtain ⟨ha, hb, hc⟩ := ih child hszc hw hl hh hfreshc htr
                    obtain ⟨m1, m2, m3, m4, m5⟩ := meiosis_wf ha (hc rfl) hms
                    refine ⟨m1, m2, m3, m4, ?_⟩
                    rw [m5, hb]
                  obtain ⟨hseq2, hent2⟩ := wfseq_split_at pos hseq hdiv hklo hchild hstep
                  refine ⟨WF.int hseq2, ?_, ?_⟩
                  · rw [entries_int, entries_int]
                    exact hent2
                  · intro hfl
                    by_cases hfull2 : (listInsertAt pos sep ks).length = ns - 1
                    · exact hfull2
                    · rw [if_neg hfull2] at hfl
                      exact InsertResult.noConfusion hfl
        | none =>
          simp only [hdiv] at hins
          have hfreshg : ∀ q ∈ g.entries, q.1 ≠ key := by
            intro q hq
            refine hfresh q ?_
            rw [entries_int]
            exact List.mem_append_right _ hq
          cases htr : g.insert key value with
          | error e =>
            simp only [htr] at hins
            exact Except.noConfusion hins
          | ok gr =>
            obtain ⟨g2, r⟩ := gr
            simp only [htr] at hins
            cases r with
            | Open =>
              simp only [Except.ok.injEq, Prod.mk.injEq] at hins
              obtain ⟨hn2, hres⟩ := hins
              subst hn2
              subst hres
              have hstep : ∀ glo, WF ns h2 glo hi g → okLo glo key →
                  WF ns h2 glo hi g2 ∧
                  g2.entries = entriesInsert key value g.entries := by
                intro glo hw hl
                obtain ⟨ha, hb, _⟩ := ih g hsg hw hl hkhi hfreshg htr
                exact ⟨ha, hb⟩
              obtain ⟨hseq2, hent2⟩ := wfseq_greater_open hseq hdiv hklo hstep
              refine ⟨WF.int hseq2, ?_, ?_⟩
              · rw [entries_int, entries_int]
                exact hent2
              · intro hfl
                exact InsertResult.noConfusion hfl
            | Full =>
              cases hms : g2.meiosis with
              | none =>
                simp only [hms] at hins
                exact Except.noConfusion hins
              | some tr =>
                obtain ⟨former, rest⟩ := tr
                obtain ⟨latter, sep⟩ := rest
                simp only [hms] at hins
                simp only [Except.ok.injEq, Prod.mk.injEq] at hins
                obtain ⟨hn2, hres⟩ := hins
                subst hn2
                subst hres
                have hstep : ∀ glo, WF ns h2 glo hi g → okLo glo key →
                    WF ns h2 glo (some sep) former ∧
                    WF ns h2 (some sep) hi latter ∧
                    okLoS glo sep ∧ okHi hi sep ∧
                    former.entries ++ latter.entries =
                      entriesInsert key value g.entries := by
                  intro glo hw hl
                  obtain ⟨ha, hb, hc⟩ := ih g hsg hw hl hkhi hfreshg htr
                  obtain ⟨m1, m2, m3, m4, m5⟩ := meiosis_wf ha (hc rfl) hms
                  refine ⟨m1, m2, m3, m4, ?_⟩
                  rw [m5, hb]
                obtain ⟨hseq2, hent2⟩ := wfseq_greater_split hseq hdiv hklo hstep
                refine ⟨WF.int hseq2, ?_, ?_⟩
                · rw [entries_int, entries_int]
                  exact hent2
                · intro hfl
                  by_cases hfull2 : (ks ++ [sep]).length = ns - 1
                  · exact hfull2
                  · rw [if_neg hfull2] at hfl
                    exact InsertResult.noConfusion hfl

/-! ### Tree-level invariant preservation -/

theorem treewf_new (ns : Nat) : TreeWF ns (BPlusTree.new ns) := by
  refine ⟨rfl, 1, WF.ext rfl ?_ ?_ ?_⟩
  · simp
  · intro k hk
    simp at hk
  · intro k hk
    simp at hk

theorem tree_insert_spec {ns : Nat} {t t2 : BPlusTree} {key value : Nat}
    (htw : TreeWF ns t) (hfresh : ∀ q ∈ t.root.entries, q.1 ≠ key)
    (hins : t.insert key value = .ok t2) :
    TreeWF ns t2 ∧ t2.root.entries = entriesInsert key value t.root.entries := by
  obtain ⟨hns, h, hwf⟩ := htw
  unfold BPlusTree.insert at hins
  cases htr : t.root.insert key value with
  | error e =>
    simp only [htr] at hins
    exact Except.noConfusion hins
  | ok r =>
    obtain ⟨root2, res⟩ := r
    simp only [htr] at hins
    cases res with
    | Open =>
      simp only [Except.ok.injEq] at hins
      subst hins
      obtain ⟨hwf2, hent2, _⟩ := insert_spec (sizeOf t.root + 1) t.root
        (Nat.lt_succ_self _) hwf okLo_none okHi_none hfresh htr
      exact ⟨⟨hns, h, hwf2⟩, hent2⟩
    | Full =>
      cases hms : root2.meiosis with
      | none =>
        simp only [hms] at hins
        exact Except.noConfusion hins
      | some tr =>
        obtain ⟨node1, rest⟩ := tr
        obtain ⟨node2, sep⟩ := rest
        simp only [hms, Except.ok.injEq] at hins
        subst hins
        obtain ⟨hwf2, hent2, hfc⟩ := insert_spec (sizeOf t.root + 1) t.root
          (Nat.lt_succ_self _) hwf okLo_none okHi_none hfresh htr
        obtain ⟨m1, m2, _, _, m5⟩ := meiosis_wf hwf2 (hfc rfl) hms
        constructor
        · refine ⟨hns, h + 1, ?_⟩
          rw [hns]
          exact WF.int (WFSeq.cons okLoS_none okHi_none m1 (WFSeq.last m2))
        · rw [entries_int, entriesList_cons, entriesList_nil, List.append_nil,
            m5, hent2]

theorem insertList_spec :
    ∀ (qs : List (Nat × Nat)) (t t2 : BPlusTree) {ns : Nat},
      TreeWF ns t →
      (qs.map Prod.fst).Nodup →
      (∀ q ∈ qs, ∀ r ∈ t.root.entries, q.1 ≠ r.1) →
      insertList t qs = .ok t2 →
      TreeWF ns t2 ∧ t2.root.entries.Perm (qs ++ t.root.entries) := by
  intro qs
  induction qs with
  | nil =>
    intro t t2 ns htw hnd hdisj hins
    simp only [insertList, Except.ok.injEq] at hins
    subst hins
    exact ⟨htw, by simp⟩
  | cons q qt ihq =>
    intro t t2 ns htw hnd hdisj hins
    simp only [insertList] at hins
    cases htr : t.insert q.1 q.2 with
    | error e =>
      simp only [htr] at hins
      exact Except.noConfusion hins
    | ok t3 =>
      simp only [htr] at hins
      have hfresh : ∀ r ∈ t.root.entries, r.1 ≠ q.1 :=
        fun r hr => (hdisj q (List.mem_cons_self q qt) r hr).symm
      obtain ⟨htw3, hent3⟩ := tree_insert_spec htw hfresh htr
      have hperm3 : t3.root.entries.Perm (q :: t.root.entries) := by
        rw [hent3]
        exact entriesInsert_perm q.1 q.2 t.root.entries
      have hdisj3 : ∀ q2 ∈ qt, ∀ r ∈ t3.root.entries, q2.1 ≠ r.1 := by
        intro q2 hq2 r hr
        have hrmem : r ∈ q :: t.root.entries := hperm3.subset hr
        rcases List.mem_cons.mp hrmem with rfl | hr2
        · intro he
          rw [List.map_cons] at hnd
          exact (List.nodup_cons.mp hnd).1
            (he ▸ List.mem_map_of_mem Prod.fst hq2)
        · exact hdisj q2 (List.mem_cons_of_mem q hq2) r hr2
      have hnd2 : (qt.map Prod.fst).Nodup := by
        rw [List.map_cons] at hnd
        exact (List.nodup_cons.mp hnd).2
      obtain ⟨htw2, hperm2⟩ := ihq t3 t2 htw3 hnd2 hdisj3 hins
      refine ⟨htw2, ?_⟩
      refine hperm2.trans ?_
      refine (hperm3.append_left qt).trans ?_
      exact List.perm_middle

/-! ### Claim C1 -/

/-- C1: round-trip of the public interface.  For every tree constructed
with `BPlusTree::new` and every sequence of distinct keys whose inserts
all succeed, `lookup` finds each inserted key with its associated value
and returns `none` for every key never inserted. -/
theorem c1_roundtrip (ns : Nat) (qs : List (Nat × Nat)) (t : BPlusTree)
    (hnd : (qs.map Prod.fst).Nodup)
    (hins : insertList (BPlusTree.new ns) qs = .ok t) :
    (∀ q ∈ qs, t.lookup q.1 = some q.2) ∧
    (∀ key, key ∉ qs.map Prod.fst → t.lookup key = none) := by
  have hdisj : ∀ q ∈ qs, ∀ r ∈ (BPlusTree.new ns).root.entries, q.1 ≠ r.1 := by
    intro q _ r hr
    have : (BPlusTree.new ns).root.entries = [] := by
      show (NodeType.Ext (.mk ns [] [] none)).entries = []
      rw [entries_ext]
      rfl
    rw [this] at hr
    cases hr
  obtain ⟨htw, hperm0⟩ := insertList_spec qs (BPlusTree.new ns) t
    (treewf_new ns) hnd hdisj hins
  obtain ⟨hns2, h2, hwf2⟩ := htw
  have hperm : t.root.entries.Perm qs := by
    have hempty : (BPlusTree.new ns).root.entries = [] := by
      show (NodeType.Ext (.mk ns [] [] none)).entries = []
      rw [entries_ext]
      rfl
    rw [hempty, List.append_nil] at hperm0
    exact hperm0
  have hndt : (t.root.entries.map Prod.fst).Nodup :=
    (List.Perm.nodup_iff (hperm.map Prod.fst)).mpr hnd
  constructor
  · intro q hq
    show t.root.lookup q.1 = some q.2
    rw [lookup_eq2 hwf2]
    exact assocFind_eq_some_of_mem hndt (hperm.mem_iff.mpr hq)
  · intro key hk
    show t.root.lookup key = none
    rw [lookup_eq2 hwf2]
    refine assocFind_eq_none ?_
    intro r hr heq
    exact hk (heq ▸ List.mem_map_of_mem Prod.fst (hperm.subset hr))

theorem c1_roundtrip_witness :
    ((BPlusTree.mk 5 (.Ext (.mk 5 [1, 2] [10, 20] none))).lookup 1 = some 10) ∧
    ((BPlusTree.mk 5 (.Ext (.mk 5 [1, 2] [10, 20] none))).lookup 3 = none) := by
  have h := c1_roundtrip 5 [(1, 10), (2, 20)]
    (BPlusTree.mk 5 (.Ext (.mk 5 [1, 2] [10, 20] none)))
    (by decide)
    (by simp [insertList, BPlusTree.new, BPlusTree.insert, NodeType.insert,
      ExternalNode.insert, kvIns, get_insert_position, position, listInsertAt,
      Except.map, NodeType.meiosis, ExternalNode.meiosis])
  exact ⟨h.1 (1, 10) (by decide), h.2 3 (by decide)⟩

/-! ### Claim C10 -/

/-- C10: inserting the same key twice into a fresh tree (node size at
least 3) stores two entries for the key, the second after the first,
and `lookup` returns the first value, not the second. -/
theorem c10_duplicate_insert (ns k v1 v2 : Nat) (hns : 3 ≤ ns) :
    ∃ t : BPlusTree,
      insertList (BPlusTree.new ns) [(k, v1), (k, v2)] = .ok t ∧
      t.root = .Ext (.mk ns [k, k] [v1, v2] none) ∧
      t.lookup k = some v1 := by
  have h0 : ¬ ns ≤ 0 := by omega
  have h1 : ¬ ns ≤ 1 := by omega
  have e1 : ¬ (1 = ns) := by omega
  have e2 : ¬ (2 = ns) := by omega
  refine ⟨⟨ns, .Ext (.mk ns [k, k] [v1, v2] none)⟩, ?_, rfl, ?_⟩
  · simp [insertList, BPlusTree.new, BPlusTree.insert, NodeType.insert,
      ExternalNode.insert, kvIns, get_insert_position, position, listInsertAt,
      Except.map, h0, h1, e1, e2, lt_irrefl]
  · simp [BPlusTree.lookup, NodeType.lookup, ExternalNode.lookup]

theorem c10_duplicate_insert_witness :
    ∃ t : BPlusTree,
      insertList (BPlusTree.new 3) [(7, 100), (7, 200)] = .ok t ∧
      t.root = .Ext (.mk 3 [7, 7] [100, 200] none) ∧
      t.lookup 7 = some 100 :=
  c10_duplicate_insert 3 7 100 200 (by decide)

/-! ### Shape invariant: lengths, node sizes and uniform heights -/

theorem shapeAll_iff {ns h : Nat} {ps : List NodeType} :
    ShapeAll ns h ps ↔ ∀ p ∈ ps, Shape ns h p := by
  induction ps with
  | nil =>
    constructor
    · intro _ p hp
      cases hp
    · intro _
      exact ShapeAll.nil
  | cons p2 pt ih =>
    constructor
    · intro hall p hp
      cases hall with
      | cons hp2 hpt =>
        rcases List.mem_cons.mp hp with rfl | hp3
        · exact hp2
        · exact ih.mp hpt p hp3
    · intro hmem
      exact ShapeAll.cons (hmem p2 (List.mem_cons_self p2 pt))
        (ih.mpr (fun p hp => hmem p (List.mem_cons_of_mem p2 hp)))

theorem mem_listInsertAt {α : Type} {x a : α} {l : List α} :
    ∀ {n : Nat}, x ∈ listInsertAt n a l → x = a ∨ x ∈ l := by
  induction l with
  | nil =>
    intro n hx
    cases n with
    | zero =>
      rcases List.mem_cons.mp hx with rfl | hx2
      · exact Or.inl rfl
      · cases hx2
    | succ n =>
      rcases List.mem_cons.mp hx with rfl | hx2
      · exact Or.inl rfl
      · cases hx2
  | cons y ys ih =>
    intro n hx
    cases n with
    | zero =>
      rcases List.mem_cons.mp hx with rfl | hx2
      · exact Or.inl rfl
      · exact Or.inr hx2
    | succ n =>
      rw [listInsertAt_succ_cons] at hx
      rcases List.mem_cons.mp hx with rfl | hx2
      · exact Or.inr (List.mem_cons_self x ys)
      · rcases ih hx2 with h1 | h2
        · exact Or.inl h1
        · exact Or.inr (List.mem_cons_of_mem y h2)

theorem shape_meiosis {ns h : Nat} {m f l : NodeType} {sep : Nat}
    (hsh : Shape ns h m) (hm : m.meiosis = some (f, l, sep)) :
    Shape ns h f ∧ Shape ns h l := by
  cases hsh with
  | ext hlv =>
    rename_i ks vs nx
    simp only [NodeType.meiosis, ExternalNode.meiosis] at hm
    cases hdrop : ks.drop ((ns + 1) >>> 1) with
    | nil =>
      rw [hdrop] at hm
      simp at hm
    | cons sep2 lks =>
      rw [hdrop] at hm
      simp only [Option.map_some', Option.some.injEq, Prod.mk.injEq] at hm
      obtain ⟨hf, hl, hsep⟩ := hm
      subst hf
      subst hl
      have hlend : ks.length - (ns + 1) >>> 1 = lks.length + 1 := by
        have hld := congrArg List.length hdrop
        rw [List.length_drop] at hld
        simpa using hld
      constructor
      · exact Shape.ext (by simp [hlv])
      · refine Shape.ext ?_
        rw [List.length_drop, List.length_cons, hlv, hlend]
  | int hlen hall hg =>
    rename_i h2 ks ps g
    simp only [NodeType.meiosis] at hm
    by_cases hguard : ps.length < 3 ∨ ks.length < 3
    · rw [if_pos hguard] at hm
      exact Option.noConfusion hm
    · rw [if_neg hguard] at hm
      cases hdk : ks.drop (ns >>> 1 - 1) with
      | nil =>
        rw [hdk] at hm
        cases hdp : ps.drop (ns >>> 1 - 1) <;> rw [hdp] at hm <;>
          exact Option.noConfusion hm
      | cons lkf lks =>
        cases hdp : ps.drop (ns >>> 1 - 1) with
        | nil =>
          rw [hdk, hdp] at hm
          exact Option.noConfusion hm
        | cons lpf lps =>
          rw [hdk, hdp] at hm
          simp only [Option.some.injEq, Prod.mk.injEq] at hm
          obtain ⟨hf, hl, hsep⟩ := hm
          subst hf
          subst hl
          have hdklt : ns >>> 1 - 1 < ks.length := by
            have hld := congrArg List.length hdk
            rw [List.length_drop] at hld
            simp only [List.length_cons] at hld
            omega
          have hdplt : ns >>> 1 - 1 < ps.length := by
            have hld := congrArg List.length hdp
            rw [List.length_drop] at hld
            simp only [List.length_cons] at hld
            omega
          have hlks : lks.length = ks.length - (ns >>> 1 - 1) - 1 := by
            have hld := congrArg List.length hdk
            rw [List.length_drop] at hld
            simp only [List.length_cons] at hld
            omega
          have hlps : lps.length = ps.length - (ns >>> 1 - 1) - 1 := by
            have hld := congrArg List.length hdp
            rw [List.length_drop] at hld
            simp only [List.length_cons] at hld
            omega
          have hlpf : lpf ∈ ps := by
            refine List.drop_subset (ns >>> 1 - 1) ps ?_
            rw [hdp]
            exact List.mem_cons_self lpf lps
          constructor
          · refine Shape.int ?_ ?_ ?_
            · rw [List.length_take, List.length_take, hlen]
            · exact shapeAll_iff.mpr
                (fun p hp => shapeAll_iff.mp hall p (List.take_subset _ ps hp))
            · exact shapeAll_iff.mp hall lpf hlpf
          · refine Shape.int (by omega) ?_ hg
            refine shapeAll_iff.mpr (fun p hp => shapeAll_iff.mp hall p ?_)
            refine List.drop_subset (ns >>> 1 - 1) ps ?_
            rw [hdp]
            exact List.mem_cons_of_mem lpf hp

/-- Every successful insert preserves the shape invariant (lengths,
node-size fields and uniform child heights), at the same height. -/
theorem shape_insert :
    ∀ (N : Nat) (n : NodeType) {ns h key value : Nat} {n2 : NodeType}
      {res : InsertResult},
      sizeOf n < N → Shape ns h n →
      n.insert key value = .ok (n2, res) →
      Shape ns h n2 := by
  intro N
  induction N with
  | zero => intro n ns h key value n2 res hsz; omega
  | succ N ih =>
    intro n ns h key value n2 res hsz hsh hins
    cases hsh with
    | ext hlv =>
      rename_i ks vs nx
      simp only [NodeType.insert, ExternalNode.insert] at hins
      by_cases hcap : ns ≤ ks.length
      · rw [if_pos hcap] at hins
        simp [Except.map] at hins
      · rw [if_neg hcap] at hins
        simp only [Except.map, Except.ok.injEq, Prod.mk.injEq] at hins
        obtain ⟨hn2, hres⟩ := hins
        subst hn2
        exact Shape.ext (kvIns_snd_length hlv)
    | int hlen hall hg =>
      rename_i h2 ks ps g
      rw [insert_int_eq] at hins
      simp only [insertIntBody] at hins
      by_cases hcap : ¬ ks.length ≤ ns - 2
      · rw [if_pos hcap] at hins
        exact Except.noConfusion hins
      · rw [if_neg hcap] at hins
        have hsg : sizeOf g < N :=
          lt_of_lt_of_le sizeOf_greater_lt (Nat.lt_succ_iff.mp hsz)
        have hsps : ∀ p ∈ ps, sizeOf p < N :=
          fun p hp => lt_of_lt_of_le (sizeOf_child_lt hp) (Nat.lt_succ_iff.mp hsz)
        cases hdiv : get_child_division ks key with
        | some pos =>
          simp only [hdiv] at hins
          cases hchild : ps[pos]? with
          | none =>
            simp only [hchild] at hins
            exact Except.noConfusion hins
          | some child =>
            simp only [hchild] at hins
            have hmem : child ∈ ps := mem_of_getElem2 hchild
            have hshc : Shape ns h2 child := shapeAll_iff.mp hall child hmem
            cases htr : child.insert key value with
            | error e =>
              simp only [htr] at hins
              exact Except.noConfusion hins
            | ok cr =>
              obtain ⟨child2, r⟩ := cr
              simp only [htr] at hins
              have hshc2 : Shape ns h2 child2 :=
                ih child (hsps child hmem) hshc htr
              cases r with
              | Open =>
                simp only [Except.ok.injEq, Prod.mk.injEq] at hins
                obtain ⟨hn2, hres⟩ := hins
                subst hn2
                refine Shape.int (by rw [hlen, List.length_set]) ?_ hg
                refine shapeAll_iff.mpr ?_
                intro p hp
                rcases List.mem_or_eq_of_mem_set hp with hp2 | rfl
                · exact shapeAll_iff.mp hall p hp2
                · exact hshc2
              | Full =>
                cases hms : child2.meiosis with
                | none =>
                  simp only [hms] at hins
                  exact Except.noConfusion hins
                | some tr =>
                  obtain ⟨former, rest⟩ := tr
                  obtain ⟨latter, sep⟩ := rest
                  simp only [hms] at hins
                  simp only [Except.ok.injEq, Prod.mk.injEq] at hins
                  obtain ⟨hn2, hres⟩ := hins
                  subst hn2
                  obtain ⟨hshf, hshl⟩ := shape_meiosis hshc2 hms
                  refine Shape.int ?_ ?_ hg
                  · rw [length_listInsertAt, length_listInsertAt,
                      List.length_set, hlen]
                  · refine shapeAll_iff.mpr ?_
                    intro p hp
                    rcases mem_listInsertAt hp with rfl | hp2
                    · exact hshf
                    · rcases List.mem_or_eq_of_mem_set hp2 with hp3 | rfl
                      · exact shapeAll_iff.mp hall p hp3
                      · exact hshl
        | none =>
          simp only [hdiv] at hins
          cases htr : g.insert key value with
          | error e =>
            simp only [htr] at hins
            exact Except.noConfusion hins
          | ok gr =>
            obtain ⟨g2, r⟩ := gr
            simp only [htr] at hins
            have hshg2 : Shape ns h2 g2 := ih g hsg hg htr
            cases r with
            | Open =>
              simp only [Except.ok.injEq, Prod.mk.injEq] at hins
              obtain ⟨hn2, hres⟩ := hins
              subst hn2
              exact Shape.int hlen hall hshg2
            | Full =>
              cases hms : g2.meiosis with
              | none =>
                simp only [hms] at hins
                exact Except.noConfusion hins
              | some tr =>
                obtain ⟨former, rest⟩ := tr
                obtain ⟨latter, sep⟩ := rest
                simp only [hms] at hins
                simp only [Except.ok.injEq, Prod.mk.injEq] at hins
                obtain ⟨hn2, hres⟩ := hins
                subst hn2
                obtain ⟨hshf, hshl⟩ := shape_meiosis hshg2 hms
                refine Shape.int (by simp [hlen]) ?_ hshl
                refine shapeAll_iff.mpr ?_
                intro p hp
                rcases List.mem_append.mp hp with hp2 | hp3
                · exact shapeAll_iff.mp hall p hp2
                · rw [List.mem_singleton] at hp3
                  subst hp3
                  exact hshf

theorem shape_subnode {ns h : Nat} {n m : NodeType}
    (hsub : Subnode m n) (hsh : Shape ns h n) : ∃ h2, Shape ns h2 m := by
  induction hsub generalizing h with
  | refl => exact ⟨h, hsh⟩
  | child hmem _ ih =>
    cases hsh with
    | int hlen hall hg =>
      exact ih (shapeAll_iff.mp hall _ hmem)
  | greater _ ih =>
    cases hsh with
    | int hlen hall hg => exact ih hg

theorem shape_height :
    ∀ (N : Nat) (n : NodeType) {ns h : Nat},
      sizeOf n < N → Shape ns h n → n.height = h := by
  intro N
  induction N with
  | zero => intro n ns h hsz; omega
  | succ N ih =>
    intro n ns h hsz hsh
    cases hsh with
    | ext hlv => simp [NodeType.height]
    | int hlen hall hg =>
      rename_i h2 ks ps g
      have hsg : sizeOf g < N :=
        lt_of_lt_of_le sizeOf_greater_lt (Nat.lt_succ_iff.mp hsz)
      simp only [NodeType.height]
      rw [ih g hsg hg]
      omega

theorem treeshape_new (ns : Nat) : TreeShape ns (BPlusTree.new ns) :=
  ⟨rfl, 1, Shape.ext rfl⟩

theorem tree_shape_insert {ns : Nat} {t t2 : BPlusTree} {key value : Nat}
    (hts : TreeShape ns t) (hins : t.insert key value = .ok t2) :
    TreeShape ns t2 := by
  obtain ⟨hns, h, hsh⟩ := hts
  unfold BPlusTree.insert at hins
  cases htr : t.root.insert key value with
  | error e =>
    simp only [htr] at hins
    exact Except.noConfusion hins
  | ok r =>
    obtain ⟨root2, res⟩ := r
    simp only [htr] at hins
    have hsh2 : Shape ns h root2 :=
      shape_insert (sizeOf t.root + 1) t.root (Nat.lt_succ_self _) hsh htr
    cases res with
    | Open =>
      simp only [Except.ok.injEq] at hins
      subst hins
      exact ⟨hns, h, hsh2⟩
    | Full =>
      cases hms : root2.meiosis with
      | none =>
        simp only [hms] at hins
        exact Except.noConfusion hins
      | some tr =>
        obtain ⟨node1, rest⟩ := tr
        obtain ⟨node2, sep⟩ := rest
        simp only [hms, Except.ok.injEq] at hins
        subst hins
        obtain ⟨hsh1, hshn2⟩ := shape_meiosis hsh2 hms
        refine ⟨hns, h + 1, ?_⟩
        rw [hns]
        exact Shape.int rfl (ShapeAll.cons hsh1 ShapeAll.nil) hshn2

theorem insertList_shape :
    ∀ (qs : List (Nat × Nat)) (t t2 : BPlusTree) {ns : Nat},
      TreeShape ns t → insertList t qs = .ok t2 → TreeShape ns t2 := by
  intro qs
  induction qs with
  | nil =>
    intro t t2 ns hts hins
    simp only [insertList, Except.ok.injEq] at hins
    subst hins
    exact hts
  | cons q qt ihq =>
    intro t t2 ns hts hins
    simp only [insertList] at hins
    cases htr : t.insert q.1 q.2 with
    | error e =>
      simp only [htr] at hins
      exact Except.noConfusion hins
    | ok t3 =>
      simp only [htr] at hins
      exact ihq t3 t2 (tree_shape_insert hts htr) hins

/-! ### Claim C9 -/

/-- C9: in every tree reachable by a sequence of (successful) inserts
from a freshly constructed tree, every internal node has exactly as many
routing keys as `pointers` entries — i.e. one key fewer than its total
number of children, the `greater` reference being the extra child.
(`shape_insert` and `shape_meiosis` are the per-operation preservation
lemmas behind this.) -/
theorem c9_keys_pointers_invariant (ns : Nat) (qs : List (Nat × Nat))
    (t : BPlusTree) (hins : insertList (BPlusTree.new ns) qs = .ok t) :
    ∀ (ns2 : Nat) (ks : List Nat) (ps : List NodeType) (g : NodeType),
      Subnode (.Int ns2 ks ps g) t.root → ks.length = ps.length := by
  intro ns2 ks ps g hsub
  obtain ⟨hns, h, hsh⟩ := insertList_shape qs _ t (treeshape_new ns) hins
  obtain ⟨h2, hsh2⟩ := shape_subnode hsub hsh
  cases hsh2 with
  | int hlen _ _ => exact hlen

theorem c9_keys_pointers_invariant_witness :
    ([3] : List Nat).length =
      ([.Ext (.mk 3 [1, 2] [1, 2] (some (.mk 3 [3] [3] none)))] : List NodeType).length :=
  c9_keys_pointers_invariant 3 [(1, 1), (2, 2), (3, 3)]
    ⟨3, .Int 3 [3] [.Ext (.mk 3 [1, 2] [1, 2] (some (.mk 3 [3] [3] none)))]
      (.Ext (.mk 3 [3] [3] none))⟩
    (by simp [insertList, BPlusTree.new, BPlusTree.insert, NodeType.insert,
      ExternalNode.insert, kvIns, get_insert_position, position, listInsertAt,
      Except.map, NodeType.meiosis, ExternalNode.meiosis])
    3 [3] [.Ext (.mk 3 [1, 2] [1, 2] (some (.mk 3 [3] [3] none)))]
    (.Ext (.mk 3 [3] [3] none)) Subnode.refl

/-! ### Claim C6 -/

/-- C6: the `height` contract.  A leaf has height 1; the tree's height
is the root's height; and on every tree reachable by inserts, each
internal node's height is one plus the height of any of its children
(all children sit at the same depth).  `InternalNode`'s own `height` is
absent from the sources and is modelled from the spec (see
`NodeType.height`). -/
theorem c6_height_contract :
    (∀ e : ExternalNode, (NodeType.Ext e).height = 1) ∧
    (∀ t : BPlusTree, t.height = t.root.height) ∧
    (∀ (ns : Nat) (qs : List (Nat × Nat)) (t : BPlusTree),
      insertList (BPlusTree.new ns) qs = .ok t →
      ∀ (ns2 : Nat) (ks : List Nat) (ps : List NodeType) (g : NodeType),
        Subnode (.Int ns2 ks ps g) t.root →
        (∀ p ∈ ps, (NodeType.Int ns2 ks ps g).height = 1 + p.height) ∧
        (NodeType.Int ns2 ks ps g).height = 1 + g.height) := by
  refine ⟨?_, fun t => rfl, ?_⟩
  · intro e
    simp [NodeType.height]
  · intro ns qs t hins ns2 ks ps g hsub
    obtain ⟨hns, h, hsh⟩ := insertList_shape qs _ t (treeshape_new ns) hins
    obtain ⟨h2, hsh2⟩ := shape_subnode hsub hsh
    cases hsh2 with
    | int hlen hall hg =>
      rename_i h3
      have hgh : g.height = h3 :=
        shape_height (sizeOf g + 1) g (Nat.lt_succ_self _) hg
      have hnodeh : (NodeType.Int ns ks ps g).height = h3 + 1 :=
        shape_height (sizeOf (NodeType.Int ns ks ps g) + 1) _
          (Nat.lt_succ_self _) (Shape.int hlen hall hg)
      constructor
      · intro p hp
        have hph : p.height = h3 :=
          shape_height (sizeOf p + 1) p (Nat.lt_succ_self _)
            (shapeAll_iff.mp hall p hp)
        rw [hnodeh, hph]
        omega
      · rw [hnodeh, hgh]
        omega

theorem c6_height_contract_witness :
    (NodeType.Int 3 [3] [.Ext (.mk 3 [1, 2] [1, 2] (some (.mk 3 [3] [3] none)))]
      (.Ext (.mk 3 [3] [3] none))).height =
      1 + (NodeType.Ext (.mk 3 [3] [3] none)).height :=
  (c6_height_contract.2.2 3 [(1, 1), (2, 2), (3, 3)]
    ⟨3, .Int 3 [3] [.Ext (.mk 3 [1, 2] [1, 2] (some (.mk 3 [3] [3] none)))]
      (.Ext (.mk 3 [3] [3] none))⟩
    (by simp [insertList, BPlusTree.new, BPlusTree.insert, NodeType.insert,
      ExternalNode.insert, kvIns, get_insert_position, position, listInsertAt,
      Except.map, NodeType.meiosis, ExternalNode.meiosis])
    3 [3] [.Ext (.mk 3 [1, 2] [1, 2] (some (.mk 3 [3] [3] none)))]
    (.Ext (.mk 3 [3] [3] none)) Subnode.refl).2

/-! ### Capacity invariant and insert totality -/

theorem capAll_iff {ps : List NodeType} :
    CapAll ps ↔ ∀ p ∈ ps, Cap p := by
  induction ps with
  | nil =>
    constructor
    · intro _ p hp
      cases hp
    · intro _
      exact CapAll.nil
  | cons p2 pt ih =>
    constructor
    · intro hall p hp
      cases hall with
      | cons hp2 hpt =>
        rcases List.mem_cons.mp hp with rfl | hp3
        · exact hp2
        · exact ih.mp hpt p hp3
    · intro hmem
      exact CapAll.cons (hmem p2 (List.mem_cons_self p2 pt))
        (ih.mpr (fun p hp => hmem p (List.mem_cons_of_mem p2 hp)))

theorem gcd_lt_length {ks : List Nat} {key : Nat} :
    ∀ {pos : Nat}, get_child_division ks key = some pos → pos < ks.length := by
  induction ks with
  | nil =>
    intro pos h
    exact Option.noConfusion h
  | cons k kt ih =>
    intro pos h
    cases pos with
    | zero => simp
    | succ j =>
      obtain ⟨_, h2⟩ := gcd_some_succ h
      have := ih h2
      simp only [List.length_cons]
      omega

theorem kvIns_fst_length (key value : Nat) (ks vs : List Nat) :
    (kvIns key value ks vs).1.length = ks.length + 1 := by
  rw [keyIns_eq_fst]
  exact length_keyIns key ks

/-- A full node (in the sense of `FullCap`) with node size at least 4
always splits successfully, into two within-capacity halves. -/
theorem cap_meiosis {ns h : Nat} {m : NodeType}
    (hns : 4 ≤ ns) (hsh : Shape ns h m) (hfc : FullCap m) :
    ∃ f l sep, m.meiosis = some (f, l, sep) ∧ Cap f ∧ Cap l := by
  cases hsh with
  | ext hlv =>
    rename_i ks vs nx
    have hklen : ks.length = ns := hfc
    have hcut : (ns + 1) >>> 1 < ns := by
      rw [Nat.shiftRight_one]
      omega
    have hcut1 : 1 ≤ (ns + 1) >>> 1 := by
      rw [Nat.shiftRight_one]
      omega
    cases hdrop : ks.drop ((ns + 1) >>> 1) with
    | nil =>
      have := congrArg List.length hdrop
      rw [List.length_drop] at this
      simp only [List.length_nil] at this
      omega
    | cons sep2 lks =>
      have hlend := congrArg List.length hdrop
      rw [List.length_drop] at hlend
      simp only [List.length_cons] at hlend
      refine ⟨.Ext (.mk ns (ks.take ((ns + 1) >>> 1)) (vs.take ((ns + 1) >>> 1))
          (some (.mk ns (sep2 :: lks) (vs.drop ((ns + 1) >>> 1)) nx))),
        .Ext (.mk ns (sep2 :: lks) (vs.drop ((ns + 1) >>> 1)) nx), sep2, ?_, ?_, ?_⟩
      · simp [NodeType.meiosis, ExternalNode.meiosis, hdrop]
      · refine Cap.ext ?_
        rw [List.length_take]
        omega
      · refine Cap.ext ?_
        simp only [List.length_cons]
        omega
  | int hlen hall hg =>
    rename_i h2 ks ps g
    obtain ⟨hklen, hcall, hcg⟩ := hfc
    have hd : ns >>> 1 - 1 < ns - 1 := by
      rw [Nat.shiftRight_one]
      omega
    have hguard : ¬ (ps.length < 3 ∨ ks.length < 3) := by
      push_neg
      constructor <;> omega
    cases hdk : ks.drop (ns >>> 1 - 1) with
    | nil =>
      have := congrArg List.length hdk
      rw [List.length_drop] at this
      simp only [List.length_nil] at this
      omega
    | cons lkf lks =>
      cases hdp : ps.drop (ns >>> 1 - 1) with
      | nil =>
        have := congrArg List.length hdp
        rw [List.length_drop] at this
        simp only [List.length_nil] at this
        omega
      | cons lpf lps =>
        have hlks : lks.length = ks.length - (ns >>> 1 - 1) - 1 := by
          have := congrArg List.length hdk
          rw [List.length_drop] at this
          simp only [List.length_cons] at this
          omega
        have hlps : lps.length = ps.length - (ns >>> 1 - 1) - 1 := by
          have := congrArg List.length hdp
          rw [List.length_drop] at this
          simp only [List.length_cons] at this
          omega
        refine ⟨.Int ns (ks.take (ns >>> 1 - 1)) (ps.take (ns >>> 1 - 1)) lpf,
          .Int ns lks lps g, lkf, ?_, ?_, ?_⟩
        · simp [NodeType.meiosis, if_neg hguard, hdk, hdp]
        · refine Cap.int ?_ ?_ ?_
          · rw [List.length_take]
            rw [Nat.shiftRight_one] at hd ⊢
            omega
          · exact capAll_iff.mpr
              (fun p hp => capAll_iff.mp hcall p (List.take_subset _ ps hp))
          · refine capAll_iff.mp hcall lpf ?_
            refine List.drop_subset (ns >>> 1 - 1) ps ?_
            rw [hdp]
            exact List.mem_cons_self lpf lps
        · refine Cap.int ?_ ?_ hcg
          · omega
          · refine capAll_iff.mpr (fun p hp => capAll_iff.mp hcall p ?_)
            refine List.drop_subset (ns >>> 1 - 1) ps ?_
            rw [hdp]
            exact List.mem_cons_of_mem lpf hp

/-- Totality of insert for node sizes at least 4: on a within-capacity,
well-shaped node, insert never returns the error result and never hits
a panic. -/
theorem insert_total :
    ∀ (N : Nat) (n : NodeType) {ns h key value : Nat},
      sizeOf n < N → 4 ≤ ns → Shape ns h n → Cap n →
      ∃ n2 res, n.insert key value = .ok (n2, res) ∧
        Shape ns h n2 ∧
        (res = .Open → Cap n2) ∧
        (res = .Full → FullCap n2) := by
  intro N
  induction N with
  | zero => intro n ns h key value hsz; omega
  | succ N ih =>
    intro n ns h key value hsz hns hsh hcap
    cases hsh with
    | ext hlv =>
      rename_i ks vs nx
      have hklt : ks.length < ns := by cases hcap with | ext h2 => exact h2
      refine ⟨.Ext (.mk ns (kvIns key value ks vs).1 (kvIns key value ks vs).2 nx),
        if (kvIns key value ks vs).1.length = ns then .Full else .Open, ?_, ?_, ?_, ?_⟩
      · simp [NodeType.insert, ExternalNode.insert, if_neg (not_le.mpr hklt), Except.map]
      · exact Shape.ext (kvIns_snd_length hlv)
      · intro hres
        by_cases hfl : (kvIns key value ks vs).1.length = ns
        · rw [if_pos hfl] at hres
          exact InsertResult.noConfusion hres
        · refine Cap.ext ?_
          rw [kvIns_fst_length] at hfl ⊢
          omega
      · intro hres
        by_cases hfl : (kvIns key value ks vs).1.length = ns
        · exact hfl
        · rw [if_neg hfl] at hres
          exact InsertResult.noConfusion hres
    | int hlen hall hg =>
      rename_i h2 ks ps g
      have hcapk : ks.length ≤ ns - 2 := by
        cases hcap with | int hk _ _ => exact hk
      have hcapall : CapAll ps := by
        cases hcap with | int _ hc _ => exact hc
      have hcapg : Cap g := by
        cases hcap with | int _ _ hc => exact hc
      have hguard : ¬ ¬ ks.length ≤ ns - 2 := not_not_intro hcapk
      have hsg : sizeOf g < N :=
        lt_of_lt_of_le sizeOf_greater_lt (Nat.lt_succ_iff.mp hsz)
      have hsps : ∀ p ∈ ps, sizeOf p < N :=
        fun p hp => lt_of_lt_of_le (sizeOf_child_lt hp) (Nat.lt_succ_iff.mp hsz)
      cases hdiv : get_child_division ks key with
      | some pos =>
        have hposlt : pos < ps.length := hlen ▸ gcd_lt_length hdiv
        have hget : ps[pos]? = some ps[pos] := List.getElem?_eq_getElem hposlt
        have hmem : ps[pos] ∈ ps := List.getElem_mem hposlt
        obtain ⟨child2, r, htr, hsh2, hopen, hfull⟩ :=
          @ih ps[pos] ns h2 key value (hsps _ hmem) hns
            (shapeAll_iff.mp hall _ hmem) (capAll_iff.mp hcapall _ hmem)
        cases r with
        | Open =>
          refine ⟨.Int ns ks (ps.set pos child2) g, .Open, ?_, ?_, ?_, ?_⟩
          · rw [insert_int_eq]
            simp only [insertIntBody]
            rw [if_neg hguard]
            simp only [hdiv, hget, htr]
          · refine Shape.int (by rw [hlen, List.length_set]) ?_ hg
            refine shapeAll_iff.mpr ?_
            intro p hp
            rcases List.mem_or_eq_of_mem_set hp with hp2 | rfl
            · exact shapeAll_iff.mp hall p hp2
            · exact hsh2
          · intro _
            refine Cap.int hcapk ?_ hcapg
            refine capAll_iff.mpr ?_
            intro p hp
            rcases List.mem_or_eq_of_mem_set hp with hp2 | rfl
            · exact capAll_iff.mp hcapall p hp2
            · exact hopen rfl
          · intro hres
            exact InsertResult.noConfusion hres
        | Full =>
          obtain ⟨f, l, sep, hms, hcapf, hcapl⟩ :=
            cap_meiosis hns hsh2 (hfull rfl)
          refine ⟨.Int ns (listInsertAt pos sep ks)
            (listInsertAt pos f (ps.set pos l)) g,
            if (listInsertAt pos sep ks).length = ns - 1 then .Full else .Open,
            ?_, ?_, ?_, ?_⟩
          · rw [insert_int_eq]
            simp only [insertIntBody]
            rw [if_neg hguard]
            simp only [hdiv, hget, htr, hms]
          · obtain ⟨hshf, hshl⟩ := shape_meiosis hsh2 hms
            refine Shape.int ?_ ?_ hg
            · rw [length_listInsertAt, length_listInsertAt, List.length_set, hlen]
            · refine shapeAll_iff.mpr ?_
              intro p hp
              rcases mem_listInsertAt hp with rfl | hp2
              · exact hshf
              · rcases List.mem_or_eq_of_mem_set hp2 with hp3 | rfl
                · exact shapeAll_iff.mp hall p hp3
                · exact hshl
          · intro hres
            by_cases hfl : (listInsertAt pos sep ks).length = ns - 1
            · rw [if_pos hfl] at hres
              exact InsertResult.noConfusion hres
            · refine Cap.int ?_ ?_ hcapg
              · rw [length_listInsertAt] at hfl ⊢
                omega
              · refine capAll_iff.mpr ?_
                intro p hp
                rcases mem_listInsertAt hp with rfl | hp2
                · exact hcapf
                · rcases List.mem_or_eq_of_mem_set hp2 with hp3 | rfl
                  · exact capAll_iff.mp hcapall p hp3
                  · exact hcapl
          · intro hres
            by_cases hfl : (listInsertAt pos sep ks).length = ns - 1
            · refine ⟨hfl, ?_, hcapg⟩
              refine capAll_iff.mpr ?_
              intro p hp
              rcases mem_listInsertAt hp with rfl | hp2
              · exact hcapf
              · rcases List.mem_or_eq_of_mem_set hp2 with hp3 | rfl
                · exact capAll_iff.mp hcapall p hp3
                · exact hcapl
            · rw [if_neg hfl] at hres
              exact InsertResult.noConfusion hres
      | none =>
        obtain ⟨g2, r, htr, hshg2, hopen, hfull⟩ :=
          @ih g ns h2 key value hsg hns hg hcapg
        cases r with
        | Open =>
          refine ⟨.Int ns ks ps g2, .Open, ?_, ?_, ?_, ?_⟩
          · rw [insert_int_eq]
            simp only [insertIntBody]
            rw [if_neg hguard]
            simp only [hdiv, htr]
          · exact Shape.int hlen hall hshg2
          · intro _
            exact Cap.int hcapk hcapall (hopen rfl)
          · intro hres
            exact InsertResult.noConfusion hres
        | Full =>
          obtain ⟨f, l, sep, hms, hcapf, hcapl⟩ :=
            cap_meiosis hns hshg2 (hfull rfl)
          refine ⟨.Int ns (ks ++ [sep]) (ps ++ [f]) l,
            if (ks ++ [sep]).length = ns - 1 then .Full else .Open, ?_, ?_, ?_, ?_⟩
          · rw [insert_int_eq]
            simp only [insertIntBody]
            rw [if_neg hguard]
            simp only [hdiv, htr, hms]
          · obtain ⟨hshf, hshl⟩ := shape_meiosis hshg2 hms
            refine Shape.int (by simp [hlen]) ?_ hshl
            refine shapeAll_iff.mpr ?_
            intro p hp
            rcases List.mem_append.mp hp with hp2 | hp3
            · exact shapeAll_iff.mp hall p hp2
            · rw [List.mem_singleton] at hp3
              subst hp3
              exact hshf
          · intro hres
            by_cases hfl : (ks ++ [sep]).length = ns - 1
            · rw [if_pos hfl] at hres
              exact InsertResult.noConfusion hres
            · refine Cap.int ?_ ?_ hcapl
              · simp only [List.length_append, List.length_cons,
                  List.length_nil] at hfl ⊢
                omega
              · refine capAll_iff.mpr ?_
                intro p hp
                rcases List.mem_append.mp hp with hp2 | hp3
                · exact capAll_iff.mp hcapall p hp2
                · rw [List.mem_singleton] at hp3
                  subst hp3
                  exact hcapf
          · intro hres
            by_cases hfl : (ks ++ [sep]).length = ns - 1
            · refine ⟨hfl, ?_, hcapl⟩
              refine capAll_iff.mpr ?_
              intro p hp
              rcases List.mem_append.mp hp with hp2 | hp3
              · exact capAll_iff.mp hcapall p hp2
              · rw [List.mem_singleton] at hp3
                subst hp3
                exact hcapf
            · rw [if_neg hfl] at hres
              exact InsertResult.noConfusion hres

theorem tree_insert_total {ns key value : Nat} {t : BPlusTree}
    (hns : 4 ≤ ns) (hts : TreeShape ns t) (hcap : Cap t.root) :
    ∃ t2, t.insert key value = .ok t2 ∧ TreeShape ns t2 ∧ Cap t2.root := by
  obtain ⟨hnst, h, hsh⟩ := hts
  obtain ⟨root2, res, htr, hsh2, hopen, hfull⟩ :=
    @insert_total (sizeOf t.root + 1) t.root ns h key value
      (Nat.lt_succ_self _) hns hsh hcap
  cases res with
  | Open =>
    refine ⟨⟨t.node_size, root2⟩, ?_, ⟨hnst, h, hsh2⟩, hopen rfl⟩
    unfold BPlusTree.insert
    simp only [htr]
  | Full =>
    obtain ⟨f, l, sep, hms, hcapf, hcapl⟩ := cap_meiosis hns hsh2 (hfull rfl)
    refine ⟨⟨t.node_size, .Int t.node_size [sep] [f] l⟩, ?_, ?_, ?_⟩
    · unfold BPlusTree.insert
      simp only [htr, hms]
    · obtain ⟨hshf, hshl⟩ := shape_meiosis hsh2 hms
      refine ⟨hnst, h + 1, ?_⟩
      rw [hnst]
      exact Shape.int rfl (ShapeAll.cons hshf ShapeAll.nil) hshl
    · show Cap (.Int t.node_size [sep] [f] l)
      rw [hnst]
      refine Cap.int (by simp; omega) (CapAll.cons hcapf CapAll.nil) hcapl

/-! ### Claim C2 -/

/-- C2 counterexample: with node size 3 (which the claim includes), the
fifth ascending insert panics inside `InternalNode::meiosis` (the
`panic!()` guard `keys.len() < 3` fires when the root internal node
must split), so `BPlusTree::insert` does not always succeed. -/
theorem c2_counterexample :
    insertList (BPlusTree.new 3) [(1, 1), (2, 2), (3, 3), (4, 4), (5, 5)] =
      .error "meiosis failure" := by
  simp [insertList, BPlusTree.new, BPlusTree.insert, NodeType.insert,
    ExternalNode.insert, kvIns, get_insert_position, position, listInsertAt,
    Except.map, NodeType.meiosis, ExternalNode.meiosis, get_child_division,
    insertIntBody]

/-- C2 (amended): for every tree with node size at least 4 and every
sequence of key/value inserts, `BPlusTree::insert` always succeeds — it
never returns the error result and never reaches a modelled panic. -/
theorem c2_insert_total_amended (ns : Nat) (hns : 4 ≤ ns)
    (qs : List (Nat × Nat)) :
    ∃ t, insertList (BPlusTree.new ns) qs = .ok t := by
  have hgen : ∀ (qs2 : List (Nat × Nat)) (t : BPlusTree),
      TreeShape ns t → Cap t.root →
      ∃ t2, insertList t qs2 = .ok t2 ∧ TreeShape ns t2 ∧ Cap t2.root := by
    intro qs2
    induction qs2 with
    | nil =>
      intro t hts hcap
      exact ⟨t, rfl, hts, hcap⟩
    | cons q qt ihq =>
      intro t hts hcap
      obtain ⟨t3, htr, hts3, hcap3⟩ := @tree_insert_total ns q.1 q.2 t hns hts hcap
      obtain ⟨t2, hrest, hts2, hcap2⟩ := ihq t3 hts3 hcap3
      refine ⟨t2, ?_, hts2, hcap2⟩
      simp only [insertList, htr]
      exact hrest
  obtain ⟨t, ht, _, _⟩ := hgen qs (BPlusTree.new ns) (treeshape_new ns)
    (Cap.ext (by simpa using by omega))
  exact ⟨t, ht⟩

theorem c2_insert_total_amended_witness :
    ∃ t, insertList (BPlusTree.new 4) [(1, 1), (2, 2), (3, 3), (4, 4), (5, 5)] = .ok t :=
  c2_insert_total_amended 4 (by decide) [(1, 1), (2, 2), (3, 3), (4, 4), (5, 5)]

/-! ### Claim C3 -/

/-- C3 counterexample: the leaf forward links are owned deep copies
(`Box::clone` in `ExternalNode::meiosis`), so later inserts into the
right sibling are not reflected in the left sibling's stored `next`
copy.  After inserting 1..4 at node size 3 the chain from the leftmost
leaf sees only `[1, 2, 3]` while the tree stores keys `[1, 2, 3, 4]` —
the chain does not visit all stored keys. -/
theorem c3_counterexample :
    ∃ (t : BPlusTree) (e : ExternalNode),
      insertList (BPlusTree.new 3) [(1, 1), (2, 2), (3, 3), (4, 4)] = .ok t ∧
      leftmostLeaf t.root = some e ∧
      chainKeys e = [1, 2, 3] ∧
      t.root.entries.map Prod.fst = [1, 2, 3, 4] ∧
      chainKeys e ≠ t.root.entries.map Prod.fst := by
  refine ⟨⟨3, .Int 3 [3] [.Ext (.mk 3 [1, 2] [1, 2] (some (.mk 3 [3] [3] none)))]
      (.Ext (.mk 3 [3, 4] [3, 4] none))⟩,
    .mk 3 [1, 2] [1, 2] (some (.mk 3 [3] [3] none)), ?_, ?_, ?_, ?_, ?_⟩
  · simp [insertList, BPlusTree.new, BPlusTree.insert, NodeType.insert,
      ExternalNode.insert, kvIns, get_insert_position, position, listInsertAt,
      Except.map, NodeType.meiosis, ExternalNode.meiosis, get_child_division,
      insertIntBody]
  · simp [leftmostLeaf]
  · simp [chainKeys]
  · simp [NodeType.entries, entriesList]
  · simp [chainKeys, NodeType.entries, entriesList]

/-- C3 (amended): the split-local link behaviour does hold — whenever a
leaf splits, the new right leaf takes the old leaf's forward link and
the new left leaf's forward link is set (as an owned copy) to the new
right leaf.  The global consequence claimed (the chain from the
leftmost leaf visits all stored keys after every insert sequence) fails
because the links are cloned by value, see `c3_counterexample`. -/
theorem c3_leaf_link_amended (e f l : ExternalNode) (sep : Nat)
    (hm : e.meiosis = some (f, l, sep)) :
    f.next = some l ∧ l.next = e.next := by
  obtain ⟨ns, ks, vs, nx⟩ := e
  simp only [ExternalNode.meiosis] at hm
  cases hdrop : ks.drop ((ns + 1) >>> 1) with
  | nil =>
    rw [hdrop] at hm
    exact Option.noConfusion hm
  | cons sep2 lks =>
    rw [hdrop] at hm
    simp only [Option.some.injEq, Prod.mk.injEq] at hm
    obtain ⟨hf, hl, hsep⟩ := hm
    subst hf
    subst hl
    exact ⟨rfl, rfl⟩

theorem c3_leaf_link_amended_witness :
    (ExternalNode.mk 2 [1] [10] (some (.mk 2 [2] [20] none))).next =
        some (.mk 2 [2] [20] none) ∧
      (ExternalNode.mk 2 [2] [20] none).next = none :=
  c3_leaf_link_amended (.mk 2 [1, 2] [10, 20] none)
    (.mk 2 [1] [10] (some (.mk 2 [2] [20] none)))
    (.mk 2 [2] [20] none) 2 rfl

/-! ### Claim C5 -/

/-- The insert loop over `a ++ b` continues with `b` from the tree the
loop over `a` produced, provided that prefix loop succeeded. -/
theorem insertList_append_ok {t t2 : BPlusTree} {a b : List (Nat × Nat)} :
    insertList t a = .ok t2 → insertList t (a ++ b) = insertList t2 b := by
  induction a generalizing t with
  | nil =>
    intro ha
    simp only [insertList, Except.ok.injEq] at ha
    subst ha
    simp
  | cons q qt ih =>
    intro ha
    simp only [insertList] at ha
    rw [List.cons_append]
    simp only [insertList]
    cases htr : t.insert q.1 q.2 with
    | error e =>
      rw [htr] at ha
      exact Except.noConfusion ha
    | ok t3 =>
      rw [htr] at ha
      exact ih ha

/-- Unfolding one step of the insert loop once the insert at the head
pair is known to succeed. -/
theorem insertList_step {t t2 : BPlusTree} {k v : Nat} (qs : List (Nat × Nat))
    (h : t.insert k v = .ok t2) : insertList t ((k, v) :: qs) = insertList t2 qs := by
  simp only [insertList, h]

/-- Inserts 1..5 into an empty node-size-5 tree: the leaf fills and the
fifth insert splits it under a new internal root (each step checked by
evaluation; the steps are kept separate to keep the proof terms small). -/
theorem trace5_upto5 : insertList (BPlusTree.new 5)
    [(1, 1), (2, 2), (3, 3), (4, 4), (5, 5)] =
    .ok ⟨5, .Int 5 [4]
      [.Ext (.mk 5 [1, 2, 3] [1, 2, 3] (some (.mk 5 [4, 5] [4, 5] none)))]
      (.Ext (.mk 5 [4, 5] [4, 5] none))⟩ := by
  have s1 : BPlusTree.insert ⟨5, .Ext (.mk 5 [] [] none)⟩ 1 1 =
      .ok ⟨5, .Ext (.mk 5 [1] [1] none)⟩ := by
    simp [BPlusTree.insert, NodeType.insert, ExternalNode.insert, kvIns,
      get_insert_position, position, listInsertAt, Except.map]
  have s2 : BPlusTree.insert ⟨5, .Ext (.mk 5 [1] [1] none)⟩ 2 2 =
      .ok ⟨5, .Ext (.mk 5 [1, 2] [1, 2] none)⟩ := by
    simp [BPlusTree.insert, NodeType.insert, ExternalNode.insert, kvIns,
      get_insert_position, position, listInsertAt, Except.map]
  have s3 : BPlusTree.insert ⟨5, .Ext (.mk 5 [1, 2] [1, 2] none)⟩ 3 3 =
      .ok ⟨5, .Ext (.mk 5 [1, 2, 3] [1, 2, 3] none)⟩ := by
    simp [BPlusTree.insert, NodeType.insert, ExternalNode.insert, kvIns,
      get_insert_position, position, listInsertAt, Except.map]
  have s4 : BPlusTree.insert ⟨5, .Ext (.mk 5 [1, 2, 3] [1, 2, 3] none)⟩ 4 4 =
      .ok ⟨5, .Ext (.mk 5 [1, 2, 3, 4] [1, 2, 3, 4] none)⟩ := by
    simp [BPlusTree.insert, NodeType.insert, ExternalNode.insert, kvIns,
      get_insert_position, position, listInsertAt, Except.map]
  have s5 : BPlusTree.insert ⟨5, .Ext (.mk 5 [1, 2, 3, 4] [1, 2, 3, 4] none)⟩ 5 5 =
      .ok ⟨5, .Int 5 [4]
        [.Ext (.mk 5 [1, 2, 3] [1, 2, 3] (some (.mk 5 [4, 5] [4, 5] none)))]
        (.Ext (.mk 5 [4, 5] [4, 5] none))⟩ := by
    simp [BPlusTree.insert, NodeType.insert, ExternalNode.insert, kvIns,
      get_insert_position, position, listInsertAt, Except.map,
      NodeType.meiosis, ExternalNode.meiosis]
  show insertList ⟨5, .Ext (.mk 5 [] [] none)⟩ _ = _
  rw [insertList_step _ s1, insertList_step _ s2, insertList_step _ s3,
    insertList_step _ s4, insertList_step _ s5]
  rfl

/-- Inserts 6..10 into the tree left by `trace5_upto5`, growing the two
right leaves and splitting the greater leaf at the eighth insert. -/
theorem trace5_upto10 : insertList
    ⟨5, .Int 5 [4]
      [.Ext (.mk 5 [1, 2, 3] [1, 2, 3] (some (.mk 5 [4, 5] [4, 5] none)))]
      (.Ext (.mk 5 [4, 5] [4, 5] none))⟩
    [(6, 6), (7, 7), (8, 8), (9, 9), (10, 10)] =
    .ok ⟨5, .Int 5 [4, 7]
      [.Ext (.mk 5 [1, 2, 3] [1, 2, 3] (some (.mk 5 [4, 5] [4, 5] none))),
       .Ext (.mk 5 [4, 5, 6] [4, 5, 6] (some (.mk 5 [7, 8] [7, 8] none)))]
      (.Ext (.mk 5 [7, 8, 9, 10] [7, 8, 9, 10] none))⟩ := by
  have s6 : BPlusTree.insert
      ⟨5, .Int 5 [4]
        [.Ext (.mk 5 [1, 2, 3] [1, 2, 3] (some (.mk 5 [4, 5] [4, 5] none)))]
        (.Ext (.mk 5 [4, 5] [4, 5] none))⟩ 6 6 =
      .ok ⟨5, .Int 5 [4]
        [.Ext (.mk 5 [1, 2, 3] [1, 2, 3] (some (.mk 5 [4, 5] [4, 5] none)))]
        (.Ext (.mk 5 [4, 5, 6] [4, 5, 6] none))⟩ := by
    simp [BPlusTree.insert, NodeType.insert, ExternalNode.insert, kvIns,
      get_insert_position, position, listInsertAt, Except.map,
      get_child_division, insertIntBody]
  have s7 : BPlusTree.insert
      ⟨5, .Int 5 [4]
        [.Ext (.mk 5 [1, 2, 3] [1, 2, 3] (some (.mk 5 [4, 5] [4, 5] none)))]
        (.Ext (.mk 5 [4, 5, 6] [4, 5, 6] none))⟩ 7 7 =
      .ok ⟨5, .Int 5 [4]
        [.Ext (.mk 5 [1, 2, 3] [1, 2, 3] (some (.mk 5 [4, 5] [4, 5] none)))]
        (.Ext (.mk 5 [4, 5, 6, 7] [4, 5, 6, 7] none))⟩ := by
    simp [BPlusTree.insert, NodeType.insert, ExternalNode.insert, kvIns,
      get_insert_position, position, listInsertAt, Except.map,
      get_child_division, insertIntBody]
  have s8 : BPlusTree.insert
      ⟨5, .Int 5 [4]
        [.Ext (.mk 5 [1, 2, 3] [1, 2, 3] (some (.mk 5 [4, 5] [4, 5] none)))]
        (.Ext (.mk 5 [4, 5, 6, 7] [4, 5, 6, 7] none))⟩ 8 8 =
      .ok ⟨5, .Int 5 [4, 7]
        [.Ext (.mk 5 [1, 2, 3] [1, 2, 3] (some (.mk 5 [4, 5] [4, 5] none))),
         .Ext (.mk 5 [4, 5, 6] [4, 5, 6] (some (.mk 5 [7, 8] [7, 8] none)))]
        (.Ext (.mk 5 [7, 8] [7, 8] none))⟩ := by
    simp [BPlusTree.insert, NodeType.insert, ExternalNode.insert, kvIns,
      get_insert_position, position, listInsertAt, Except.map,
      get_child_division, insertIntBody, NodeType.meiosis, ExternalNode.meiosis]
  have s9 : BPlusTree.insert
      ⟨5, .Int 5 [4, 7]
        [.Ext (.mk 5 [1, 2, 3] [1, 2, 3] (some (.mk 5 [4, 5] [4, 5] none))),
         .Ext (.mk 5 [4, 5, 6] [4, 5, 6] (some (.mk 5 [7, 8] [7, 8] none)))]
        (.Ext (.mk 5 [7, 8] [7, 8] none))⟩ 9 9 =
      .ok ⟨5, .Int 5 [4, 7]
        [.Ext (.mk 5 [1, 2, 3] [1, 2, 3] (some (.mk 5 [4, 5] [4, 5] none))),
         .Ext (.mk 5 [4, 5, 6] [4, 5, 6] (some (.mk 5 [7, 8] [7, 8] none)))]
        (.Ext (.mk 5 [7, 8, 9] [7, 8, 9] none))⟩ := by
    simp [BPlusTree.insert, NodeType.insert, ExternalNode.insert, kvIns,
      get_insert_position, position, listInsertAt, Except.map,
      get_child_division, insertIntBody]
  have s10 : BPlusTree.insert
      ⟨5, .Int 5 [4, 7]
        [.Ext (.mk 5 [1, 2, 3] [1, 2, 3] (some (.mk 5 [4, 5] [4, 5] none))),
         .Ext (.mk 5 [4, 5, 6] [4, 5, 6] (some (.mk 5 [7, 8] [7, 8] none)))]
        (.Ext (.mk 5 [7, 8, 9] [7, 8, 9] none))⟩ 10 10 =
      .ok ⟨5, .Int 5 [4, 7]
        [.Ext (.mk 5 [1, 2, 3] [1, 2, 3] (some (.mk 5 [4, 5] [4, 5] none))),
         .Ext (.mk 5 [4, 5, 6] [4, 5, 6] (some (.mk 5 [7, 8] [7, 8] none)))]
        (.Ext (.mk 5 [7, 8, 9, 10] [7, 8, 9, 10] none))⟩ := by
    simp [BPlusTree.insert, NodeType.insert, ExternalNode.insert, kvIns,
      get_insert_position, position, listInsertAt, Except.map,
      get_child_division, insertIntBody]
  rw [insertList_step _ s6, insertList_step _ s7, insertList_step _ s8,
    insertList_step _ s9, insertList_step _ s10]
  rfl

/-- C5: the repository's own test `displays_all_keys` expects
`"[[1, 2, 3]4[4, 5, 6]7[7, 8, 9, 10]]"` for node size 5 after inserting
1..10, but the `Display` implementations render each child followed by
`", "` and never render the routing keys, producing
`"[[1, 2, 3], [4, 5, 6], [7, 8, 9, 10]]"`.  The code contradicts its
own test. -/
theorem c5_display_bug :
    ∃ t : BPlusTree,
      insertList (BPlusTree.new 5)
        [(1, 1), (2, 2), (3, 3), (4, 4), (5, 5), (6, 6), (7, 7), (8, 8), (9, 9), (10, 10)] =
        .ok t ∧
      t.render = "[[1, 2, 3], [4, 5, 6], [7, 8, 9, 10]]" ∧
      t.render ≠ "[[1, 2, 3]4[4, 5, 6]7[7, 8, 9, 10]]" := by
  refine ⟨⟨5, .Int 5 [4, 7]
      [.Ext (.mk 5 [1, 2, 3] [1, 2, 3] (some (.mk 5 [4, 5] [4, 5] none))),
       .Ext (.mk 5 [4, 5, 6] [4, 5, 6] (some (.mk 5 [7, 8] [7, 8] none)))]
      (.Ext (.mk 5 [7, 8, 9, 10] [7, 8, 9, 10] none))⟩, ?_, ?_, ?_⟩
  · rw [show ([(1, 1), (2, 2), (3, 3), (4, 4), (5, 5), (6, 6), (7, 7), (8, 8),
        (9, 9), (10, 10)] : List (Nat × Nat)) =
        [(1, 1), (2, 2), (3, 3), (4, 4), (5, 5)] ++
          [(6, 6), (7, 7), (8, 8), (9, 9), (10, 10)] from rfl,
      insertList_append_ok trace5_upto5, trace5_upto10]
  · simp only [BPlusTree.render]
    simp only [NodeType.render, renderList, ExternalNode.render, renderKeys,
      renderTail, ExternalNode.keys]
    rfl
  · simp only [BPlusTree.render]
    simp only [NodeType.render, renderList, ExternalNode.render, renderKeys,
      renderTail, ExternalNode.keys]
    decide

/-! ### Claim C7 -/

/-- C7 counterexample: an internal node of node size 3 at capacity
(`keys.len() == node_size - 1 == 2`) does not split into the described
halves at all — `InternalNode::meiosis` hits its `panic!()` guard
(`keys.len() < 3`), modelled as `none`, so no left half retaining
`(3 >> 1) - 1` keys exists. -/
theorem c7_counterexample :
    (NodeType.Int 3 [2, 4]
      [.Ext (.mk 3 [1] [1] none), .Ext (.mk 3 [2] [2] none)]
      (.Ext (.mk 3 [4] [4] none))).meiosis = none := rfl

/-- C7 (amended): for node size at least 4, `meiosis` on an internal
node at capacity performs exactly the claimed steps: the left half
retains the first `(node_size >> 1) - 1` routing keys, the separator is
the first key of the right half and is removed from the right half's
key list, the left half's `greater` becomes the child immediately after
the split point, and the right half keeps the original `greater`. -/
theorem c7_internal_meiosis_amended (ns : Nat) (ks : List Nat)
    (ps : List NodeType) (g : NodeType) (hns : 4 ≤ ns)
    (hk : ks.length = ns - 1) (hp : ps.length = ns - 1) :
    ∃ (lkf : Nat) (lks : List Nat) (lpf : NodeType) (lps : List NodeType),
      ks.drop (ns >>> 1 - 1) = lkf :: lks ∧
      ps.drop (ns >>> 1 - 1) = lpf :: lps ∧
      ks[ns >>> 1 - 1]? = some lkf ∧
      ps[ns >>> 1 - 1]? = some lpf ∧
      (ks.take (ns >>> 1 - 1)).length = ns >>> 1 - 1 ∧
      (NodeType.Int ns ks ps g).meiosis =
        some (.Int ns (ks.take (ns >>> 1 - 1)) (ps.take (ns >>> 1 - 1)) lpf,
              .Int ns lks lps g, lkf) := by
  have hd : ns >>> 1 - 1 < ns - 1 := by
    rw [Nat.shiftRight_one]
    omega
  have hguard : ¬ (ps.length < 3 ∨ ks.length < 3) := by
    push_neg
    constructor <;> omega
  cases hdk : ks.drop (ns >>> 1 - 1) with
  | nil =>
    have := congrArg List.length hdk
    rw [List.length_drop] at this
    simp only [List.length_nil] at this
    omega
  | cons lkf lks =>
    cases hdp : ps.drop (ns >>> 1 - 1) with
    | nil =>
      have := congrArg List.length hdp
      rw [List.length_drop] at this
      simp only [List.length_nil] at this
      omega
    | cons lpf lps =>
      refine ⟨lkf, lks, lpf, lps, rfl, rfl, ?_, ?_, ?_, ?_⟩
      · have h0 : ks[ns >>> 1 - 1]? = (ks.drop (ns >>> 1 - 1))[0]? := by
          rw [List.getElem?_drop]
          simp
        rw [h0, hdk]
        simp
      · have h0 : ps[ns >>> 1 - 1]? = (ps.drop (ns >>> 1 - 1))[0]? := by
          rw [List.getElem?_drop]
          simp
        rw [h0, hdp]
        simp
      · rw [List.length_take]
        omega
      · simp [NodeType.meiosis, if_neg hguard, hdk, hdp]

theorem c7_internal_meiosis_amended_witness :
    ∃ (lkf : Nat) (lks : List Nat) (lpf : NodeType) (lps : List NodeType),
      ([3, 5, 7] : List Nat).drop (4 >>> 1 - 1) = lkf :: lks ∧
      ([.Ext (.mk 4 [1] [1] none), .Ext (.mk 4 [3] [3] none),
        .Ext (.mk 4 [5] [5] none)] : List NodeType).drop (4 >>> 1 - 1) = lpf :: lps ∧
      ([3, 5, 7] : List Nat)[4 >>> 1 - 1]? = some lkf ∧
      ([.Ext (.mk 4 [1] [1] none), .Ext (.mk 4 [3] [3] none),
        .Ext (.mk 4 [5] [5] none)] : List NodeType)[4 >>> 1 - 1]? = some lpf ∧
      (([3, 5, 7] : List Nat).take (4 >>> 1 - 1)).length = 4 >>> 1 - 1 ∧
      (NodeType.Int 4 [3, 5, 7]
        [.Ext (.mk 4 [1] [1] none), .Ext (.mk 4 [3] [3] none),
         .Ext (.mk 4 [5] [5] none)]
        (.Ext (.mk 4 [7] [7] none))).meiosis =
        some (.Int 4 (([3, 5, 7] : List Nat).take (4 >>> 1 - 1))
          (([.Ext (.mk 4 [1] [1] none), .Ext (.mk 4 [3] [3] none),
             .Ext (.mk 4 [5] [5] none)] : List NodeType).take (4 >>> 1 - 1)) lpf,
              .Int 4 lks lps (.Ext (.mk 4 [7] [7] none)), lkf) :=
  c7_internal_meiosis_amended 4 [3, 5, 7]
    [.Ext (.mk 4 [1] [1] none), .Ext (.mk 4 [3] [3] none),
     .Ext (.mk 4 [5] [5] none)]
    (.Ext (.mk 4 [7] [7] none)) (by decide) (by decide) (by decide)

/-! ### Claim C4 -/


/-- Inserting strictly ascending keys (all larger than the current leaf
keys) into a leaf-rooted tree, staying below capacity, appends them. -/
theorem fill_open (ns : Nat) :
    ∀ (qs : List (Nat × Nat)) (ks0 vs0 : List Nat),
      vs0.length = ks0.length →
      ks0.length + qs.length < ns →
      List.Chain' (· < ·) (ks0 ++ qs.map Prod.fst) →
      insertList ⟨ns, .Ext (.mk ns ks0 vs0 none)⟩ qs =
        .ok ⟨ns, .Ext (.mk ns (ks0 ++ qs.map Prod.fst) (vs0 ++ qs.map Prod.snd) none)⟩ := by
  intro qs
  induction qs with
  | nil =>
    intro ks0 vs0 hlv hlen hch
    simp [insertList]
  | cons q qt ih =>
    intro ks0 vs0 hlv hlen hch
    have hp : List.Pairwise (· < ·) (ks0 ++ q.1 :: qt.map Prod.fst) := by
      have := List.chain'_iff_pairwise.mp hch
      simpa using this
    have hpos : get_insert_position ks0 q.1 = none := by
      rw [get_insert_position, position_eq_none]
      intro k hk
      have hklt : k < q.1 :=
        (List.pairwise_append.mp hp).2.2 k hk q.1 (List.mem_cons_self _ _)
      simp only [decide_eq_false_iff_not]
      omega
    have hlen1 : ks0.length + qt.length + 1 < ns := by
      simp only [List.length_cons] at hlen
      omega
    have hne : ¬ ks0.length + 1 = ns := by omega
    have hguard : ¬ ns ≤ ks0.length := by omega
    have hroot : NodeType.insert (.Ext (.mk ns ks0 vs0 none)) q.1 q.2 =
        .ok (.Ext (.mk ns (ks0 ++ [q.1]) (vs0 ++ [q.2]) none), .Open) := by
      simp [NodeType.insert, ExternalNode.insert, Except.map, kvIns, hpos,
        hguard, hne]
    have hstep : BPlusTree.insert ⟨ns, .Ext (.mk ns ks0 vs0 none)⟩ q.1 q.2 =
        .ok ⟨ns, .Ext (.mk ns (ks0 ++ [q.1]) (vs0 ++ [q.2]) none)⟩ := by
      unfold BPlusTree.insert
      simp only [hroot]
    simp only [insertList, hstep]
    have hch2 : List.Chain' (· < ·) ((ks0 ++ [q.1]) ++ qt.map Prod.fst) := by
      rw [List.append_assoc, List.singleton_append]
      exact List.chain'_iff_pairwise.mpr hp
    have := ih (ks0 ++ [q.1]) (vs0 ++ [q.2]) (by simp [hlv])
      (by simp only [List.length_append, List.length_cons, List.length_nil]; omega)
      hch2
    rw [this]
    simp

/-- C4 counterexample: at node size 5, inserting the ascending keys
1..5 into a fresh tree produces one split whose separator (the root's
single routing key) is 4, the 4th smallest inserted key — not the
`⌈5/2⌉ = 3`-rd smallest (which is 3) as the claim states. -/
theorem c4_counterexample :
    ∃ t : BPlusTree,
      insertList (BPlusTree.new 5) [(1, 1), (2, 2), (3, 3), (4, 4), (5, 5)] = .ok t ∧
      rootKeys t = [4] ∧
      rootKeys t ≠ [3] := by
  refine ⟨⟨5, .Int 5 [4]
      [.Ext (.mk 5 [1, 2, 3] [1, 2, 3] (some (.mk 5 [4, 5] [4, 5] none)))]
      (.Ext (.mk 5 [4, 5] [4, 5] none))⟩, ?_, rfl, by decide⟩
  simp [insertList, BPlusTree.new, BPlusTree.insert, NodeType.insert,
    ExternalNode.insert, kvIns, get_insert_position, position, listInsertAt,
    Except.map, NodeType.meiosis, ExternalNode.meiosis, get_child_division,
    insertIntBody]

/-- C4 (amended): inserting `node_size` distinct ascending keys into a
fresh tree (node size at least 2) produces exactly one split — the
result is an internal root with one separator over the two leaf
halves — and the separator is the key at zero-based index
`(node_size + 1) >> 1`, i.e. the `(⌈node_size / 2⌉ + 1)`-th smallest
inserted key (1-indexed), not the `⌈node_size / 2⌉`-th. -/
theorem c4_first_split_amended (ns : Nat) (qs : List (Nat × Nat))
    (hns : 2 ≤ ns) (hlen : qs.length = ns)
    (hch : List.Chain' (· < ·) (qs.map Prod.fst)) :
    ∃ sep, (qs.map Prod.fst)[(ns + 1) >>> 1]? = some sep ∧
      insertList (BPlusTree.new ns) qs =
        .ok ⟨ns, .Int ns [sep]
          [.Ext (.mk ns ((qs.map Prod.fst).take ((ns + 1) >>> 1))
            ((qs.map Prod.snd).take ((ns + 1) >>> 1))
            (some (.mk ns ((qs.map Prod.fst).drop ((ns + 1) >>> 1))
              ((qs.map Prod.snd).drop ((ns + 1) >>> 1)) none)))]
          (.Ext (.mk ns ((qs.map Prod.fst).drop ((ns + 1) >>> 1))
            ((qs.map Prod.snd).drop ((ns + 1) >>> 1)) none))⟩ := by
  have hne : qs ≠ [] := by
    intro h
    rw [h] at hlen
    simp at hlen
    omega
  obtain ⟨A, qlast, hqs⟩ : ∃ A q2, qs = A ++ [q2] :=
    ⟨qs.dropLast, qs.getLast hne, (List.dropLast_append_getLast hne).symm⟩
  subst hqs
  have hAlen : A.length = ns - 1 := by
    simp only [List.length_append, List.length_cons, List.length_nil] at hlen
    omega
  simp only [List.map_append, List.map_cons, List.map_nil] at hch ⊢
  have hp : List.Pairwise (· < ·) (A.map Prod.fst ++ [qlast.1]) :=
    List.chain'_iff_pairwise.mp hch
  have hchA : List.Chain' (· < ·) (A.map Prod.fst) :=
    List.chain'_iff_pairwise.mpr (hp.sublist (List.sublist_append_left _ _))
  have hfill := fill_open ns A [] [] rfl (by simp only [List.length_nil]; omega)
    (by simpa using hchA)
  simp only [List.nil_append] at hfill
  rw [show BPlusTree.new ns = ⟨ns, .Ext (.mk ns [] [] none)⟩ from rfl]
  rw [insertList_append_ok hfill]
  have hcut : (ns + 1) >>> 1 < ns := by
    rw [Nat.shiftRight_one]
    omega
  have hKlen : (A.map Prod.fst ++ [qlast.1]).length = ns := by
    simp only [List.length_append, List.length_map, List.length_cons,
      List.length_nil]
    omega
  cases hdd : (A.map Prod.fst ++ [qlast.1]).drop ((ns + 1) >>> 1) with
  | nil =>
    have := congrArg List.length hdd
    rw [List.length_drop, hKlen] at this
    simp only [List.length_nil] at this
    omega
  | cons sep lks =>
    have hguard : ¬ ns ≤ A.length := by omega
    have hpos : get_insert_position (A.map Prod.fst) qlast.1 = none := by
      rw [get_insert_position, position_eq_none]
      intro k hk
      have hklt : k < qlast.1 :=
        (List.pairwise_append.mp hp).2.2 k hk qlast.1 (List.mem_cons_self _ _)
      simp only [decide_eq_false_iff_not]
      omega
    have hfull3 : A.length + 1 = ns := by omega
    have hroot : NodeType.insert (.Ext (.mk ns (A.map Prod.fst) (A.map Prod.snd) none))
        qlast.1 qlast.2 =
        .ok (.Ext (.mk ns (A.map Prod.fst ++ [qlast.1])
          (A.map Prod.snd ++ [qlast.2]) none), .Full) := by
      simp [NodeType.insert, ExternalNode.insert, Except.map, kvIns, hpos,
        hguard, hfull3]
    have hms : NodeType.meiosis (.Ext (.mk ns (A.map Prod.fst ++ [qlast.1])
        (A.map Prod.snd ++ [qlast.2]) none)) =
        some (.Ext (.mk ns ((A.map Prod.fst ++ [qlast.1]).take ((ns + 1) >>> 1))
            ((A.map Prod.snd ++ [qlast.2]).take ((ns + 1) >>> 1))
            (some (.mk ns (sep :: lks)
              ((A.map Prod.snd ++ [qlast.2]).drop ((ns + 1) >>> 1)) none))),
          .Ext (.mk ns (sep :: lks)
            ((A.map Prod.snd ++ [qlast.2]).drop ((ns + 1) >>> 1)) none), sep) := by
      simp [NodeType.meiosis, ExternalNode.meiosis, hdd]
    have htree : BPlusTree.insert
        ⟨ns, .Ext (.mk ns (A.map Prod.fst) (A.map Prod.snd) none)⟩
        qlast.1 qlast.2 =
        .ok ⟨ns, .Int ns [sep]
          [.Ext (.mk ns ((A.map Prod.fst ++ [qlast.1]).take ((ns + 1) >>> 1))
            ((A.map Prod.snd ++ [qlast.2]).take ((ns + 1) >>> 1))
            (some (.mk ns (sep :: lks)
              ((A.map Prod.snd ++ [qlast.2]).drop ((ns + 1) >>> 1)) none)))]
          (.Ext (.mk ns (sep :: lks)
            ((A.map Prod.snd ++ [qlast.2]).drop ((ns + 1) >>> 1)) none))⟩ := by
      unfold BPlusTree.insert
      simp only [hroot, hms]
    refine ⟨sep, ?_, ?_⟩
    · have h0 : (A.map Prod.fst ++ [qlast.1])[(ns + 1) >>> 1]? =
          ((A.map Prod.fst ++ [qlast.1]).drop ((ns + 1) >>> 1))[0]? := by
        rw [List.getElem?_drop]
        simp
      rw [h0, hdd]
      simp
    · simp only [insertList, htree]

theorem c4_first_split_amended_witness :
    ∃ sep, (([(1, 10), (2, 20), (3, 30), (4, 40)] : List (Nat × Nat)).map
        Prod.fst)[(4 + 1) >>> 1]? = some sep ∧
      insertList (BPlusTree.new 4) [(1, 10), (2, 20), (3, 30), (4, 40)] =
        .ok ⟨4, .Int 4 [sep]
          [.Ext (.mk 4 ((([(1, 10), (2, 20), (3, 30), (4, 40)] : List (Nat × Nat)).map
              Prod.fst).take ((4 + 1) >>> 1))
            ((([(1, 10), (2, 20), (3, 30), (4, 40)] : List (Nat × Nat)).map
              Prod.snd).take ((4 + 1) >>> 1))
            (some (.mk 4 ((([(1, 10), (2, 20), (3, 30), (4, 40)] : List (Nat × Nat)).map
                Prod.fst).drop ((4 + 1) >>> 1))
              ((([(1, 10), (2, 20), (3, 30), (4, 40)] : List (Nat × Nat)).map
                Prod.snd).drop ((4 + 1) >>> 1)) none)))]
          (.Ext (.mk 4 ((([(1, 10), (2, 20), (3, 30), (4, 40)] : List (Nat × Nat)).map
              Prod.fst).drop ((4 + 1) >>> 1))
            ((([(1, 10), (2, 20), (3, 30), (4, 40)] : List (Nat × Nat)).map
              Prod.snd).drop ((4 + 1) >>> 1)) none))⟩ :=
  c4_first_split_amended 4 [(1, 10), (2, 20), (3, 30), (4, 40)]
    (by decide) (by decide) (by simp [List.chain'_cons])

/-! ### Claim C8 -/

/-- C8 counterexample: an internal node holding only one routing key
(within the `node_size - 2` threshold, node size 4) still returns the
error result when the insert is routed into a child leaf that is
already at capacity — so "returns an error if and only if it already
holds more than node_size - 2 keys" fails in the only-if direction. -/
theorem c8_counterexample :
    ((NodeType.Int 4 [10]
        [.Ext (.mk 4 [1, 2, 3, 4] [1, 2, 3, 4] none)]
        (.Ext (.mk 4 [] [] none))).insert 5 99 = .error capacityErr) ∧
      ([10] : List Nat).length ≤ 4 - 2 := by
  constructor
  · rw [insert_int_eq]
    simp [insertIntBody, get_child_division, position, NodeType.insert,
      ExternalNode.insert, Except.map]
  · decide

/-- C8 (amended): occupancy signalling.  A leaf's insert errors exactly
when called at or beyond `node_size` keys, and otherwise reports `Full`
exactly when it holds `node_size` keys after the insertion.  An
internal node's insert errors *if* it already holds more than
`node_size - 2` keys (the converse fails: it also propagates errors of
over-full descendants, see `c8_counterexample`); whenever it returns
ok, its key count was within the threshold and the result is `Full`
exactly when the key count after the insert equals `node_size - 1`. -/
theorem c8_occupancy_amended (ns : Nat) (hns : 3 ≤ ns) :
    (∀ (ks vs : List Nat) (nx : Option ExternalNode) (key value : Nat),
      ns ≤ ks.length →
      (ExternalNode.mk ns ks vs nx).insert key value = .error capacityErr) ∧
    (∀ (ks vs : List Nat) (nx : Option ExternalNode) (key value : Nat),
      ks.length < ns →
      ∃ e2 res, (ExternalNode.mk ns ks vs nx).insert key value = .ok (e2, res) ∧
        e2.keys.length = ks.length + 1 ∧
        (res = .Full ↔ e2.keys.length = ns)) ∧
    (∀ (ks : List Nat) (ps : List NodeType) (g : NodeType) (key value : Nat),
      ns - 2 < ks.length →
      (NodeType.Int ns ks ps g).insert key value = .error capacityErr) ∧
    (∀ (ks : List Nat) (ps : List NodeType) (g : NodeType) (key value : Nat)
      (n2 : NodeType) (res : InsertResult),
      (NodeType.Int ns ks ps g).insert key value = .ok (n2, res) →
      ks.length ≤ ns - 2 ∧
      ∃ ks2 ps2 g2, n2 = .Int ns ks2 ps2 g2 ∧ (res = .Full ↔ ks2.length = ns - 1)) := by
  refine ⟨?_, ?_, ?_, ?_⟩
  · intro ks vs nx key value hge
    simp [ExternalNode.insert, if_pos hge]
  · intro ks vs nx key value hlt
    refine ⟨.mk ns (kvIns key value ks vs).1 (kvIns key value ks vs).2 nx,
      if (kvIns key value ks vs).1.length = ns then .Full else .Open, ?_, ?_, ?_⟩
    · simp [ExternalNode.insert, if_neg (not_le.mpr hlt)]
    · exact kvIns_fst_length key value ks vs
    · by_cases hf : (kvIns key value ks vs).1.length = ns
      · rw [if_pos hf]
        exact ⟨fun _ => hf, fun _ => rfl⟩
      · rw [if_neg hf]
        exact ⟨fun h => InsertResult.noConfusion h, fun h => absurd h hf⟩
  · intro ks ps g key value hgt
    rw [insert_int_eq]
    simp only [insertIntBody]
    rw [if_pos (by omega)]
  · intro ks ps g key value n2 res hins
    rw [insert_int_eq] at hins
    simp only [insertIntBody] at hins
    by_cases hcap : ¬ ks.length ≤ ns - 2
    · rw [if_pos hcap] at hins
      exact Except.noConfusion hins
    · rw [if_neg hcap] at hins
      rw [not_not] at hcap
      refine ⟨hcap, ?_⟩
      cases hdiv : get_child_division ks key with
      | some pos =>
        simp only [hdiv] at hins
        cases hchild : ps[pos]? with
        | none =>
          simp only [hchild] at hins
          exact Except.noConfusion hins
        | some child =>
          simp only [hchild] at hins
          cases htr : child.insert key value with
          | error e =>
            simp only [htr] at hins
            exact Except.noConfusion hins
          | ok cr =>
            obtain ⟨child2, r⟩ := cr
            simp only [htr] at hins
            cases r with
            | Open =>
              simp only [Except.ok.injEq, Prod.mk.injEq] at hins
              obtain ⟨hn2, hres⟩ := hins
              subst hn2
              subst hres
              refine ⟨ks, ps.set pos child2, g, rfl, ?_⟩
              exact ⟨fun h => InsertResult.noConfusion h, fun h => by omega⟩
            | Full =>
              cases hms : child2.meiosis with
              | none =>
                simp only [hms] at hins
                exact Except.noConfusion hins
              | some tr =>
                obtain ⟨former, rest⟩ := tr
                obtain ⟨latter, sep⟩ := rest
                simp only [hms, Except.ok.injEq, Prod.mk.injEq] at hins
                obtain ⟨hn2, hres⟩ := hins
                subst hn2
                subst hres
                refine ⟨listInsertAt pos sep ks,
                  listInsertAt pos former (ps.set pos latter), g, rfl, ?_⟩
                by_cases hf : (listInsertAt pos sep ks).length = ns - 1
                · rw [if_pos hf]
                  exact ⟨fun _ => hf, fun _ => rfl⟩
                · rw [if_neg hf]
                  exact ⟨fun h => InsertResult.noConfusion h, fun h => absurd h hf⟩
      | none =>
        simp only [hdiv] at hins
        cases htr : g.insert key value with
        | error e =>
          simp only [htr] at hins
          exact Except.noConfusion hins
        | ok gr =>
          obtain ⟨g2, r⟩ := gr
          simp only [htr] at hins
          cases r with
          | Open =>
            simp only [Except.ok.injEq, Prod.mk.injEq] at hins
            obtain ⟨hn2, hres⟩ := hins
            subst hn2
            subst hres
            refine ⟨ks, ps, g2, rfl, ?_⟩
            exact ⟨fun h => InsertResult.noConfusion h, fun h => by omega⟩
          | Full =>
            cases hms : g2.meiosis with
            | none =>
              simp only [hms] at hins
              exact Except.noConfusion hins
            | some tr =>
              obtain ⟨former, rest⟩ := tr
              obtain ⟨latter, sep⟩ := rest
              simp only [hms, Except.ok.injEq, Prod.mk.injEq] at hins
              obtain ⟨hn2, hres⟩ := hins
              subst hn2
              subst hres
              refine ⟨ks ++ [sep], ps ++ [former], latter, rfl, ?_⟩
              by_cases hf : (ks ++ [sep]).length = ns - 1
              · rw [if_pos hf]
                exact ⟨fun _ => hf, fun _ => rfl⟩
              · rw [if_neg hf]
                exact ⟨fun h => InsertResult.noConfusion h, fun h => absurd h hf⟩

theorem c8_occupancy_amended_witness :
    (ExternalNode.mk 3 [1, 2, 3] [1, 2, 3] none).insert 9 9 = .error capacityErr :=
  (c8_occupancy_amended 3 (by decide)).1 [1, 2, 3] [1, 2, 3] none 9 9 (by decide)

end Bptree
